import Mathlib

/-!
A verification development for the QUESO Metropolis-Hastings sample generator
(templated class MetropolisHastingsSG of uqMetropolisHastingsSG1.h, with its
delayed-rejection (DR) acceptance recursion and adaptive-Metropolis (AM)
covariance updates).

Shallow embedding conventions used throughout:

* IEEE-754 doubles that only flow through arithmetic, comparisons and branches
  are modelled as exact rationals.  Log-target values, which the code compares
  against plus/minus INFINITY and tests with isnan, are modelled by the type
  Fl (a rational, or one of the three non-finite flavours).
* The transcendental std::exp is modelled by an arbitrary function
  E : Q -> Q passed as a parameter; the code only applies it, never inspects it.
* Parameter vectors only ever flow into opaque density evaluations, domain
  membership tests and equality-free data movement, so they are modelled by a
  single rational.  Matrices are an abstract type with an operation record.
* The random number generator is modelled by two explicit streams: a list of
  realizer outputs (proposal draws) and a list of uniformSample outputs.
* UQ_FATAL_TEST_MACRO aborts are modelled by Except; recoverable paths (the
  code prints a warning to std::cerr and continues) are modelled by a Boolean
  diagnostic flag in the result.
-/

namespace Queso

/-- A double that may be non-finite: the model of a log-target value. -/
inductive Fl where
  | fin (v : ℚ)
  | pinf
  | ninf
  | nan
deriving DecidableEq, Repr

/-- The test the source performs on log-targets:
x == -INFINITY or x == INFINITY or isnan(x). -/
def Fl.isNonFinite : Fl → Bool
  | .fin _ => false
  | _ => true

/-- The rational payload of a finite value (junk 0 on non-finite values; only
read behind finiteness checks, mirroring the source reading the double). -/
def Fl.q : Fl → ℚ
  | .fin v => v
  | _ => 0

/-- Multiplication of a possibly non-finite double by -0.5, as in
logTarget = -0.5 * callFunction(...). -/
def flScaleNegHalf : Fl → Fl
  | .fin v => .fin (-(1/2) * v)
  | .pinf => .ninf
  | .ninf => .pinf
  | .nan => .nan

/-- The compile-time convention toggle QUESO_EXPECTS_LN_LIKELIHOOD_INSTEAD_OF
_MINUS_2_LN applied to an evaluator return: either the raw value or -0.5
times it. -/
def flCondLn (conv : Bool) (r : Fl) : Fl :=
  if conv then r else flScaleNegHalf r

/-- The same convention toggle applied to a finite proposal log-density. -/
def condLn (conv : Bool) (v : ℚ) : ℚ :=
  if conv then v else -(1/2) * v

/-- Model of MarkovChainPositionData: a position record. -/
structure MarkovChainPositionData where
  vecValues : ℚ
  outOfTargetSupport : Bool
  logLikelihood : Fl
  logTarget : Fl
deriving DecidableEq, Repr

instance : Inhabited MarkovChainPositionData :=
  ⟨⟨0, false, .fin 0, .fin 0⟩⟩

/-- Model of the transition kernel (the BaseTKGroup interface as used by the
sampler): the symmetry flag, the log-density of the stage rv keyed by a single
stage id, the log-density of the rv keyed by a stage-id list, and the validity
answer of setPreComputingPosition.  The pre-computing position table itself is
sampler-side state and is passed separately. -/
structure TKGroup where
  symmetric : Bool
  rvLn : ℕ → ℚ → ℚ
  rvSeqLn : List ℕ → ℚ → ℚ
  setPreCompValid : ℚ → ℕ → Bool

/-- MetropolisHastingsSG::alpha(x, y, xStageId, yStageId, alphaQuotientPtr),
returning (returned alpha, stored alphaQuotient, whether the std::cerr
diagnostic for a non-finite log-target was emitted).  E models std::exp and
conv the log-target convention toggle. -/
def alphaCore (E : ℚ → ℚ) (conv : Bool) (tk : TKGroup)
    (x y : MarkovChainPositionData) (xStageId yStageId : ℕ) : ℚ × ℚ × Bool :=
  if !x.outOfTargetSupport && !y.outOfTargetSupport then
    if x.logTarget.isNonFinite then (min 1 0, 0, true)
    else if y.logTarget.isNonFinite then (min 1 0, 0, true)
    else
      let yLogTargetToUse := y.logTarget.q
      if tk.symmetric then
        let alphaQuotient := E (yLogTargetToUse - x.logTarget.q)
        (min 1 alphaQuotient, alphaQuotient, false)
      else
        let qyx := condLn conv (tk.rvLn yStageId x.vecValues)
        let qxy := condLn conv (tk.rvLn xStageId y.vecValues)
        let alphaQuotient := E (yLogTargetToUse + qyx - x.logTarget.q - qxy)
        (min 1 alphaQuotient, alphaQuotient, false)
  else (min 1 0, 0, false)

/-- The double returned by the two-position alpha. -/
def alphaXY (E : ℚ → ℚ) (conv : Bool) (tk : TKGroup)
    (x y : MarkovChainPositionData) (xStageId yStageId : ℕ) : ℚ :=
  (alphaCore E conv tk x y xStageId yStageId).1

/-- MetropolisHastingsSG::acceptAlpha over an explicit stream of
uniformSample outputs: returns the decision and the remaining stream. -/
def acceptAlpha (alpha : ℚ) (uniforms : List ℚ) : Bool × List ℚ :=
  if alpha ≤ 0 then (false, uniforms)
  else if 1 ≤ alpha then (true, uniforms)
  else (uniforms.headD 0 ≤ alpha, uniforms.tail)

/-- Modelled from the spec's words for the acceptance decision (claim C3):
a uniform u is drawn at every decision and the candidate is accepted iff
u <= alpha, for every value of alpha including 0 and 1. -/
def acceptAlphaClaim (alpha : ℚ) (uniforms : List ℚ) : Bool × List ℚ :=
  (uniforms.headD 0 ≤ alpha, uniforms.tail)

/-- C2: the single-stage acceptance alpha(x, y): zero on out-of-support
positions; zero with a recorded diagnostic (and no abort; the function is
total) on non-finite log-targets of in-support positions; and equal to
min(1, exp(log_target(y) - log_target(x))) for a symmetric transition
kernel. -/
theorem alphaXY_spec (E : ℚ → ℚ) (conv : Bool) (tk : TKGroup)
    (x y : MarkovChainPositionData) (xs ys : ℕ) :
    ((x.outOfTargetSupport = true ∨ y.outOfTargetSupport = true) →
        alphaXY E conv tk x y xs ys = 0)
    ∧ (x.outOfTargetSupport = false → y.outOfTargetSupport = false →
        (x.logTarget.isNonFinite = true ∨ y.logTarget.isNonFinite = true) →
        alphaXY E conv tk x y xs ys = 0
          ∧ (alphaCore E conv tk x y xs ys).2.2 = true)
    ∧ (x.outOfTargetSupport = false → y.outOfTargetSupport = false →
        x.logTarget.isNonFinite = false → y.logTarget.isNonFinite = false →
        tk.symmetric = true →
        alphaXY E conv tk x y xs ys =
          min 1 (E (y.logTarget.q - x.logTarget.q))) := by
  refine ⟨?_, ?_, ?_⟩
  · rintro (hx | hy)
    · simp [alphaXY, alphaCore, hx]
    · cases hxo : x.outOfTargetSupport <;> simp [alphaXY, alphaCore, hxo, hy]
  · intro hx hy hnf
    rcases hnf with h | h
    · exact ⟨by simp [alphaXY, alphaCore, hx, hy, h],
        by simp [alphaCore, hx, hy, h]⟩
    · cases h2 : x.logTarget.isNonFinite <;>
        exact ⟨by simp [alphaXY, alphaCore, hx, hy, h, h2],
          by simp [alphaCore, hx, hy, h, h2]⟩
  · intro hx hy hfx hfy hsym
    simp [alphaXY, alphaCore, hx, hy, hfx, hfy, hsym]

/-- Witness for alphaXY_spec: the symmetric in-support clause evaluated at a
concrete input. -/
theorem alphaXY_spec_witness :
    alphaXY (fun _ => 1/2) true ⟨true, fun _ _ => 0, fun _ _ => 0, fun _ _ => true⟩
      ⟨0, false, .fin 0, .fin 3⟩ ⟨1, false, .fin 0, .fin 1⟩ 0 1 =
      min 1 ((fun _ : ℚ => (1:ℚ)/2) ((Fl.fin 1).q - (Fl.fin 3).q)) :=
  (alphaXY_spec (fun _ => 1/2) true
      ⟨true, fun _ _ => 0, fun _ _ => 0, fun _ _ => true⟩
      ⟨0, false, .fin 0, .fin 3⟩ ⟨1, false, .fin 0, .fin 1⟩ 0 1).2.2
    rfl rfl rfl rfl rfl

/-- C3 counterexample: at alpha = 0 the code consumes no uniform sample
(the claimed rule, which draws at every decision, consumes one). -/
theorem acceptAlpha_no_draw_at_zero :
    acceptAlpha 0 [1/3] ≠ acceptAlphaClaim 0 [1/3] := by
  simp [acceptAlpha, acceptAlphaClaim, Prod.ext_iff]

/-- C3 amended: acceptance decisions accept iff alpha >= 1, or
0 < alpha < 1 and the drawn uniform u satisfies u <= alpha; a uniform is
drawn (consumed from the stream) exactly when 0 < alpha < 1. -/
theorem acceptAlpha_spec (alpha : ℚ) (us : List ℚ) :
    ((acceptAlpha alpha us).1 = true ↔
      (1 ≤ alpha ∨ (0 < alpha ∧ us.headD 0 ≤ alpha)))
    ∧ (acceptAlpha alpha us).2 =
        (if 0 < alpha ∧ alpha < 1 then us.tail else us) := by
  constructor
  · unfold acceptAlpha
    split
    · rename_i h
      simp only [if_pos, iff_false]
      constructor
      · intro hc
        exact absurd hc (by simp)
      · rintro (h1 | ⟨h2, _⟩)
        · linarith
        · linarith
    · rename_i h
      split
      · rename_i h1
        simp only [true_iff]
        exact Or.inl h1
      · rename_i h1
        push_neg at h h1
        simp only [decide_eq_true_eq]
        constructor
        · intro hu; exact Or.inr ⟨h, hu⟩
        · rintro (h2 | ⟨_, hu⟩)
          · linarith
          · exact hu
  · unfold acceptAlpha
    split
    · rename_i h
      rw [if_neg]
      rintro ⟨h1, _⟩; linarith
    · rename_i h
      split
      · rename_i h1
        rw [if_neg]
        rintro ⟨_, h2⟩; linarith
      · rename_i h1
        push_neg at h h1
        rw [if_pos ⟨h, h1⟩]

/-!
The delayed-rejection acceptance alpha(inputPositionsData, inputTKStageIds).
The source function recurses on strictly shorter position lists (the loop
pops one element per iteration and recomputes alpha on both the forward and
the backward remainders), so it is translated with an explicit fuel argument
that the wrapper alphaVec instantiates with the list length; fuel
irrelevance is proved below.  The source loop indexed by i = 0..inputSize-3
is rendered as sums and products over Finset.range (inputSize - 2); pop_back
sequences on the copied vectors are rendered as List.take of the inputs.
-/

/-- One unfolding of MetropolisHastingsSG::alpha(vec) with the recursive
occurrences abstracted as the callback rec.  A size below 2 is a
UQ_FATAL_TEST_MACRO abort in the source and returns the junk value 0 here;
no theorem relies on that case. -/
def alphaVecBody (E : ℚ → ℚ) (conv : Bool) (tk : TKGroup) (pre : ℕ → ℚ)
    (rec : List MarkovChainPositionData → List ℕ → ℚ)
    (inputPositionsData : List MarkovChainPositionData)
    (inputTKStageIds : List ℕ) : ℚ :=
  let n := inputPositionsData.length
  if n < 2 then 0
  else if (inputPositionsData.headD default).outOfTargetSupport then 0
  else if (inputPositionsData.getLastD default).outOfTargetSupport then 0
  else if (inputPositionsData.headD default).logTarget.isNonFinite then 0
  else if (inputPositionsData.getLastD default).logTarget.isNonFinite then 0
  else if n = 2 then
    alphaXY E conv tk (inputPositionsData.headD default)
      (inputPositionsData.getLastD default)
      (inputTKStageIds.headD 0) (inputTKStageIds.getLastD 0)
  else
    let ps := inputPositionsData
    let ids := inputTKStageIds
    let bps := ps.reverse
    let bids := ids.reverse
    let logNumerator :=
      condLn conv (tk.rvSeqLn bids.dropLast (pre (bids.getLastD 0)))
        + (∑ i ∈ Finset.range (n - 2),
            condLn conv
              (tk.rvSeqLn (bids.take (n - 2 - i)) (pre (bids.getD (n - 2 - i) 0))))
        + (bps.headD default).logTarget.q
    let logDenominator :=
      condLn conv (tk.rvSeqLn ids.dropLast (pre (ids.getLastD 0)))
        + (∑ i ∈ Finset.range (n - 2),
            condLn conv
              (tk.rvSeqLn (ids.take (n - 2 - i)) (pre (ids.getD (n - 2 - i) 0))))
        + (ps.headD default).logTarget.q
    let alphasNumerator :=
      ∏ i ∈ Finset.range (n - 2),
        (1 - rec (bps.take (n - 1 - i)) (bids.take (n - 1 - i)))
    let alphasDenominator :=
      ∏ i ∈ Finset.range (n - 2),
        (1 - rec (ps.take (n - 1 - i)) (ids.take (n - 1 - i)))
    min 1 ((alphasNumerator / alphasDenominator) * E (logNumerator - logDenominator))

/-- Fuel-indexed form of the DR acceptance recursion. -/
def alphaVecF (E : ℚ → ℚ) (conv : Bool) (tk : TKGroup) (pre : ℕ → ℚ) :
    ℕ → List MarkovChainPositionData → List ℕ → ℚ
  | 0, _, _ => 0
  | fuel + 1, ps, ids => alphaVecBody E conv tk pre (alphaVecF E conv tk pre fuel) ps ids

/-- MetropolisHastingsSG::alpha(inputPositionsData, inputTKStageIds): the
wrapper instantiating the fuel by the list length. -/
def alphaVec (E : ℚ → ℚ) (conv : Bool) (tk : TKGroup) (pre : ℕ → ℚ)
    (ps : List MarkovChainPositionData) (ids : List ℕ) : ℚ :=
  alphaVecF E conv tk pre ps.length ps ids

theorem alphaVecBody_congr (E : ℚ → ℚ) (conv : Bool) (tk : TKGroup) (pre : ℕ → ℚ)
    (rec1 rec2 : List MarkovChainPositionData → List ℕ → ℚ)
    (ps : List MarkovChainPositionData) (ids : List ℕ)
    (h : ∀ qs lds, qs.length < ps.length → rec1 qs lds = rec2 qs lds) :
    alphaVecBody E conv tk pre rec1 ps ids = alphaVecBody E conv tk pre rec2 ps ids := by
  unfold alphaVecBody
  dsimp only
  split
  · rfl
  split
  · rfl
  split
  · rfl
  split
  · rfl
  split
  · rfl
  split
  · rfl
  rename_i h2 _ _ _ _ hn2
  have hlen : 2 < ps.length := by omega
  have hnum : (∏ i ∈ Finset.range (ps.length - 2),
      (1 - rec1 (ps.reverse.take (ps.length - 1 - i)) (ids.reverse.take (ps.length - 1 - i)))) =
      (∏ i ∈ Finset.range (ps.length - 2),
      (1 - rec2 (ps.reverse.take (ps.length - 1 - i)) (ids.reverse.take (ps.length - 1 - i)))) := by
    refine Finset.prod_congr rfl ?_
    intro i _
    rw [h]
    rw [List.length_take, List.length_reverse]
    omega
  have hden : (∏ i ∈ Finset.range (ps.length - 2),
      (1 - rec1 (ps.take (ps.length - 1 - i)) (ids.take (ps.length - 1 - i)))) =
      (∏ i ∈ Finset.range (ps.length - 2),
      (1 - rec2 (ps.take (ps.length - 1 - i)) (ids.take (ps.length - 1 - i)))) := by
    refine Finset.prod_congr rfl ?_
    intro i _
    rw [h]
    rw [List.length_take]
    omega
  rw [hnum, hden]

/-- Fuel irrelevance: any fuel at least the list length computes alphaVec. -/
theorem alphaVecF_fuel (E : ℚ → ℚ) (conv : Bool) (tk : TKGroup) (pre : ℕ → ℚ) :
    ∀ (f : ℕ) (ps : List MarkovChainPositionData) (ids : List ℕ),
      ps.length ≤ f →
      alphaVecF E conv tk pre f ps ids = alphaVec E conv tk pre ps ids := by
  intro f
  induction f using Nat.strong_induction_on with
  | _ f ih =>
    intro ps ids hf
    rcases Nat.eq_or_lt_of_le hf with heq | hlt
    · rw [alphaVec, heq]
    · match f, hlt with
      | f + 1, hlt =>
        have hlen : ps.length ≤ f := by omega
        rw [alphaVec]
        match hps : ps.length, hlen with
        | 0, _ =>
          have : ps = [] := List.length_eq_zero.mp hps
          subst this
          simp [alphaVecF, alphaVecBody]
        | l + 1, hlen =>
          show alphaVecBody E conv tk pre (alphaVecF E conv tk pre f) ps ids =
            alphaVecBody E conv tk pre (alphaVecF E conv tk pre l) ps ids
          refine alphaVecBody_congr E conv tk pre _ _ ps ids ?_
          intro qs lds hq
          rw [hps] at hq
          rw [ih f (by omega) qs lds (by omega), ih l (by omega) qs lds (by omega)]

theorem sum_range_sub_eq_Icc (f : ℕ → ℚ) (M : ℕ) :
    ∑ i ∈ Finset.range M, f (M - i) = ∑ k ∈ Finset.Icc 1 M, f k := by
  rw [← Nat.Ico_succ_right, Finset.sum_Ico_eq_sum_range]
  rw [← Finset.sum_range_reflect]
  refine Finset.sum_congr (by congr 1) ?_
  intro i hi
  simp only [Finset.mem_range] at hi
  congr 1
  omega

theorem prod_range_sub_eq_Icc (f : ℕ → ℚ) (M : ℕ) :
    ∏ i ∈ Finset.range M, f (M - i) = ∏ k ∈ Finset.Icc 1 M, f k := by
  rw [← Nat.Ico_succ_right, Finset.prod_Ico_eq_prod_range]
  rw [← Finset.prod_range_reflect]
  refine Finset.prod_congr (by congr 1) ?_
  intro i hi
  simp only [Finset.mem_range] at hi
  congr 1
  omega

theorem getLastD_eq_getD (l : List ℕ) (d : ℕ) (m : ℕ)
    (h : l.length = m + 1) : l.getLastD d = l.getD m d := by
  cases l with
  | nil => simp at h
  | cons a t =>
    rw [List.getLastD_eq_getLast?, List.getLast?_eq_getElem?]
    simp [List.getD, h]

theorem headD_reverse (l : List MarkovChainPositionData)
    (d : MarkovChainPositionData) : l.reverse.headD d = l.getLastD d := by
  rw [List.headD_eq_head?_getD, List.head?_reverse,
    List.getLastD_eq_getLast?]

/-- The product of alpha complements over the prefixes of length k+1,
k = 1..mEnd, of the given position list: the quantity the DR recursion
cumulates in alphasNumerator (on the reversed inputs) and
alphasDenominator (on the forward inputs). -/
def dramAlphasProd (E : ℚ → ℚ) (conv : Bool) (tk : TKGroup) (pre : ℕ → ℚ)
    (ps : List MarkovChainPositionData) (ids : List ℕ) (mEnd : ℕ) : ℚ :=
  ∏ k ∈ Finset.Icc 1 mEnd,
    (1 - alphaVec E conv tk pre (ps.take (k + 1)) (ids.take (k + 1)))

/-- The cumulated stage-proposal log-densities at positions lo..hi of the
given direction (evaluated through the pre-computing position table). -/
def dramLogSum (conv : Bool) (tk : TKGroup) (pre : ℕ → ℚ)
    (ids : List ℕ) (lo hi : ℕ) : ℚ :=
  ∑ k ∈ Finset.Icc lo hi,
    condLn conv (tk.rvSeqLn (ids.take k) (pre (ids.getD k 0)))

/-- The closed form the recursion computes for m at least 2 with good
endpoints: the density sums run over k = 1..m (every position after the
first of each direction, the final one included). -/
theorem alphaVec_closed_form (E : ℚ → ℚ) (conv : Bool) (tk : TKGroup)
    (pre : ℕ → ℚ) (ps : List MarkovChainPositionData) (ids : List ℕ) (m : ℕ)
    (hm : 2 ≤ m) (hps : ps.length = m + 1) (hids : ids.length = m + 1)
    (h0 : (ps.headD default).outOfTargetSupport = false)
    (h1 : (ps.getLastD default).outOfTargetSupport = false)
    (h2 : (ps.headD default).logTarget.isNonFinite = false)
    (h3 : (ps.getLastD default).logTarget.isNonFinite = false) :
    alphaVec E conv tk pre ps ids =
      min 1 ((dramAlphasProd E conv tk pre ps.reverse ids.reverse (m - 1) /
              dramAlphasProd E conv tk pre ps ids (m - 1)) *
        E ((dramLogSum conv tk pre ids.reverse 1 m
              + (ps.getLastD default).logTarget.q)
          - (dramLogSum conv tk pre ids 1 m
              + (ps.headD default).logTarget.q))) := by
  have hbl : ids.reverse.length = m + 1 := by simp [hids]
  rw [alphaVec, hps]
  show alphaVecBody E conv tk pre (alphaVecF E conv tk pre m) ps ids = _
  unfold alphaVecBody
  dsimp only
  rw [if_neg (by omega : ¬ ps.length < 2), if_neg (by rw [h0]; simp),
    if_neg (by rw [h1]; simp), if_neg (by rw [h2]; simp),
    if_neg (by rw [h3]; simp), if_neg (by omega : ¬ ps.length = 2)]
  rw [headD_reverse]
  have hprodNum :
      (∏ i ∈ Finset.range (ps.length - 2),
        (1 - alphaVecF E conv tk pre m (ps.reverse.take (ps.length - 1 - i))
              (ids.reverse.take (ps.length - 1 - i)))) =
      dramAlphasProd E conv tk pre ps.reverse ids.reverse (m - 1) := by
    rw [dramAlphasProd]
    refine Finset.prod_bij' (fun i _ => m - 1 - i) (fun k _ => m - 1 - k)
      ?_ ?_ ?_ ?_ ?_
    · intro a ha
      simp only [Finset.mem_range] at ha
      simp only [Finset.mem_Icc]
      omega
    · intro a ha
      simp only [Finset.mem_Icc] at ha
      simp only [Finset.mem_range]
      omega
    · intro a ha
      simp only [Finset.mem_range] at ha
      dsimp only
      omega
    · intro a ha
      simp only [Finset.mem_Icc] at ha
      dsimp only
      omega
    · intro a ha
      simp only [Finset.mem_range] at ha
      have harg : ps.length - 1 - a = (m - 1 - a) + 1 := by omega
      rw [harg, alphaVecF_fuel E conv tk pre m _ _
        (by rw [List.length_take, List.length_reverse, hps]; omega)]
  have hprodDen :
      (∏ i ∈ Finset.range (ps.length - 2),
        (1 - alphaVecF E conv tk pre m (ps.take (ps.length - 1 - i))
              (ids.take (ps.length - 1 - i)))) =
      dramAlphasProd E conv tk pre ps ids (m - 1) := by
    rw [dramAlphasProd]
    refine Finset.prod_bij' (fun i _ => m - 1 - i) (fun k _ => m - 1 - k)
      ?_ ?_ ?_ ?_ ?_
    · intro a ha
      simp only [Finset.mem_range] at ha
      simp only [Finset.mem_Icc]
      omega
    · intro a ha
      simp only [Finset.mem_Icc] at ha
      simp only [Finset.mem_range]
      omega
    · intro a ha
      simp only [Finset.mem_range] at ha
      dsimp only
      omega
    · intro a ha
      simp only [Finset.mem_Icc] at ha
      dsimp only
      omega
    · intro a ha
      simp only [Finset.mem_range] at ha
      have harg : ps.length - 1 - a = (m - 1 - a) + 1 := by omega
      rw [harg, alphaVecF_fuel E conv tk pre m _ _
        (by rw [List.length_take, hps]; omega)]
  have hsum : ∀ l : List ℕ, l.length = m + 1 →
      (condLn conv (tk.rvSeqLn l.dropLast (pre (l.getLastD 0)))
        + ∑ i ∈ Finset.range (ps.length - 2),
            condLn conv (tk.rvSeqLn (l.take (ps.length - 2 - i))
              (pre (l.getD (ps.length - 2 - i) 0)))) =
      dramLogSum conv tk pre l 1 m := by
    intro l hl
    have hm1 : m = (m - 1) + 1 := by omega
    rw [dramLogSum, hm1, Finset.sum_Icc_succ_top (by omega)]
    rw [List.dropLast_eq_take, hl, getLastD_eq_getD l 0 m hl]
    have hshift : (∑ i ∈ Finset.range (ps.length - 2),
        condLn conv (tk.rvSeqLn (l.take (ps.length - 2 - i))
          (pre (l.getD (ps.length - 2 - i) 0)))) =
        ∑ k ∈ Finset.Icc 1 (m - 1),
          condLn conv (tk.rvSeqLn (l.take k) (pre (l.getD k 0))) := by
      refine Finset.sum_bij' (fun i _ => m - 1 - i) (fun k _ => m - 1 - k)
        ?_ ?_ ?_ ?_ ?_
      · intro a ha
        simp only [Finset.mem_range] at ha
        simp only [Finset.mem_Icc]
        omega
      · intro a ha
        simp only [Finset.mem_Icc] at ha
        simp only [Finset.mem_range]
        omega
      · intro a ha
        simp only [Finset.mem_range] at ha
        dsimp only
        omega
      · intro a ha
        simp only [Finset.mem_Icc] at ha
        dsimp only
        omega
      · intro a ha
        simp only [Finset.mem_range] at ha
        have harg : ps.length - 2 - a = m - 1 - a := by omega
        rw [harg]
    rw [hshift]
    have hsub : m + 1 - 1 = (m - 1) + 1 := by omega
    rw [hsub]
    have hgd : l.getD (m - 1 + 1) 0 = l.getD m 0 := by rw [← hm1]
    have hwk : l.take (m - 1 + 1) = l.take m := by rw [← hm1]
    rw [hgd, hwk]
    ring
  rw [hprodNum, hprodDen, hsum ids.reverse hbl, hsum ids hids]

theorem min_one_zero_q : min (1 : ℚ) 0 = 0 := by norm_num

/-- An out-of-support or non-finite endpoint makes the recursion return 0. -/
theorem alphaVec_degenerate (E : ℚ → ℚ) (conv : Bool) (tk : TKGroup)
    (pre : ℕ → ℚ) (ps : List MarkovChainPositionData) (ids : List ℕ)
    (hn : 2 ≤ ps.length)
    (h : (ps.headD default).outOfTargetSupport = true
       ∨ (ps.getLastD default).outOfTargetSupport = true
       ∨ (ps.headD default).logTarget.isNonFinite = true
       ∨ (ps.getLastD default).logTarget.isNonFinite = true) :
    alphaVec E conv tk pre ps ids = 0 := by
  obtain ⟨l, hl⟩ : ∃ l, ps.length = l + 1 := ⟨ps.length - 1, by omega⟩
  rw [alphaVec, hl]
  show alphaVecBody E conv tk pre (alphaVecF E conv tk pre l) ps ids = 0
  unfold alphaVecBody
  dsimp only
  rw [if_neg (by omega : ¬ ps.length < 2)]
  by_cases c1 : (ps.headD default).outOfTargetSupport = true <;>
  by_cases c2 : (ps.getLastD default).outOfTargetSupport = true <;>
  by_cases c3 : (ps.headD default).logTarget.isNonFinite = true <;>
  by_cases c4 : (ps.getLastD default).logTarget.isNonFinite = true <;>
    simp only [c1, c2, c3, c4, if_true, if_false] <;>
    simp_all

/-- On a two-element list the recursion is the two-position acceptance. -/
theorem alphaVec_pair (E : ℚ → ℚ) (conv : Bool) (tk : TKGroup) (pre : ℕ → ℚ)
    (a b : MarkovChainPositionData) (s t : ℕ) :
    alphaVec E conv tk pre [a, b] [s, t] = alphaXY E conv tk a b s t := by
  by_cases c1 : a.outOfTargetSupport = true <;>
  by_cases c2 : b.outOfTargetSupport = true <;>
  by_cases c3 : a.logTarget.isNonFinite = true <;>
  by_cases c4 : b.logTarget.isNonFinite = true <;>
    simp [alphaVec, alphaVecF, alphaVecBody, alphaXY, alphaCore,
      min_one_zero_q, c1, c2, c3, c4]

/-- C1 (amended): the multi-stage DR acceptance.  For m = 1 it is the
single-stage rule; an out-of-support or non-finite endpoint yields 0; and
for m at least 2 with good endpoints it equals
min(1, (P_num / P_den) exp(log_num - log_den)) where P_num and P_den
multiply the alpha complements of the reversed and forward prefixes of
lengths 2..m, and log_num and log_den cumulate the stage proposal
log-densities at positions 1..m of the reversed and forward sequences
(the intermediate positions and the final one) plus the log-target of the
reversed and forward first positions. -/
theorem alphaVec_multistage_spec (E : ℚ → ℚ) (conv : Bool) (tk : TKGroup)
    (pre : ℕ → ℚ) (ps : List MarkovChainPositionData) (ids : List ℕ) (m : ℕ)
    (hps : ps.length = m + 1) (hids : ids.length = m + 1) (hm : 1 ≤ m) :
    (∀ a b s t, ps = [a, b] → ids = [s, t] →
        alphaVec E conv tk pre ps ids = alphaXY E conv tk a b s t)
    ∧ ((ps.headD default).outOfTargetSupport = true
        ∨ (ps.getLastD default).outOfTargetSupport = true
        ∨ (ps.headD default).logTarget.isNonFinite = true
        ∨ (ps.getLastD default).logTarget.isNonFinite = true →
        alphaVec E conv tk pre ps ids = 0)
    ∧ (2 ≤ m →
        (ps.headD default).outOfTargetSupport = false →
        (ps.getLastD default).outOfTargetSupport = false →
        (ps.headD default).logTarget.isNonFinite = false →
        (ps.getLastD default).logTarget.isNonFinite = false →
        alphaVec E conv tk pre ps ids =
          min 1 ((dramAlphasProd E conv tk pre ps.reverse ids.reverse (m - 1) /
                  dramAlphasProd E conv tk pre ps ids (m - 1)) *
            E ((dramLogSum conv tk pre ids.reverse 1 m
                  + (ps.getLastD default).logTarget.q)
              - (dramLogSum conv tk pre ids 1 m
                  + (ps.headD default).logTarget.q)))) := by
  refine ⟨?_, ?_, ?_⟩
  · intro a b s t hp hi
    subst hp
    subst hi
    exact alphaVec_pair E conv tk pre a b s t
  · intro h
    exact alphaVec_degenerate E conv tk pre ps ids (by omega) h
  · intro hm2 h0 h1 h2 h3
    exact alphaVec_closed_form E conv tk pre ps ids m hm2 hps hids h0 h1 h2 h3

/-- Concrete instances used to separate the recursion from the claim's
literal formula. -/
def cexE : ℚ → ℚ := fun q => if q = -4 then 1/4 else 1/2

def cexTK : TKGroup :=
  ⟨true, fun _ _ => 0, fun l _ => if l = [0, 1] then 4 else 0, fun _ _ => true⟩

def cexPos (v : ℚ) : MarkovChainPositionData := ⟨v, false, .fin 0, .fin 0⟩

def cexPs : List MarkovChainPositionData := [cexPos 0, cexPos 1, cexPos 2]

def cexIds : List ℕ := [0, 1, 2]

/-- Modelled from the claim C1's words: the same result shape, but with the
cumulated log-ratio collecting the stage proposal log-densities at the
intermediate positions only (k = 1..m-1 of each direction), which is what
the claim literally states. -/
def alphaVecClaimForm (E : ℚ → ℚ) (conv : Bool) (tk : TKGroup) (pre : ℕ → ℚ)
    (ps : List MarkovChainPositionData) (ids : List ℕ) : ℚ :=
  let n := ps.length
  let m := n - 1
  if n < 2 then 0
  else if (ps.headD default).outOfTargetSupport then 0
  else if (ps.getLastD default).outOfTargetSupport then 0
  else if (ps.headD default).logTarget.isNonFinite then 0
  else if (ps.getLastD default).logTarget.isNonFinite then 0
  else if n = 2 then
    alphaXY E conv tk (ps.headD default) (ps.getLastD default)
      (ids.headD 0) (ids.getLastD 0)
  else
    min 1 ((dramAlphasProd E conv tk pre ps.reverse ids.reverse (m - 1) /
            dramAlphasProd E conv tk pre ps ids (m - 1)) *
      E ((dramLogSum conv tk pre ids.reverse 1 (m - 1)
            + (ps.getLastD default).logTarget.q)
        - (dramLogSum conv tk pre ids 1 (m - 1)
            + (ps.headD default).logTarget.q)))

/-- Witness for alphaVec_multistage_spec: the m = 2 clause at the concrete
three-position input. -/
theorem alphaVec_multistage_spec_witness :
    alphaVec cexE true cexTK (fun _ => 0) cexPs cexIds =
      min 1 ((dramAlphasProd cexE true cexTK (fun _ => 0) cexPs.reverse
                cexIds.reverse (2 - 1) /
              dramAlphasProd cexE true cexTK (fun _ => 0) cexPs cexIds
                (2 - 1)) *
        cexE ((dramLogSum true cexTK (fun _ => 0) cexIds.reverse 1 2
              + (cexPs.getLastD default).logTarget.q)
          - (dramLogSum true cexTK (fun _ => 0) cexIds 1 2
              + (cexPs.headD default).logTarget.q))) :=
  (alphaVec_multistage_spec cexE true cexTK (fun _ => 0) cexPs cexIds 2
      rfl rfl (by norm_num)).2.2 (by norm_num)
    (by simp [cexPs, cexPos]) (by simp [cexPs, cexPos])
    (by simp [cexPs, cexPos, Fl.isNonFinite])
    (by simp [cexPs, cexPos, Fl.isNonFinite])

set_option maxHeartbeats 2000000 in
/-- C1 counterexample: with three positions the recursion disagrees with the
claim's formula, because the code's log sums also contain the proposal
log-density of the final position (here q([s0, s1]; p2) = 4), which the
claim's sum over intermediate positions omits:
the code returns 1/4 while the claim's formula gives 1/2. -/
theorem alphaVec_ne_claim_form :
    alphaVec cexE true cexTK (fun _ => 0) cexPs cexIds ≠
      alphaVecClaimForm cexE true cexTK (fun _ => 0) cexPs cexIds := by
  have hcode : alphaVec cexE true cexTK (fun _ => 0) cexPs cexIds = 1/4 := by
    simp only [alphaVec, cexPs, cexIds, List.length_cons, List.length_nil]
    norm_num [alphaVecF, alphaVecBody, alphaXY, alphaCore, condLn, cexE,
      cexTK, cexPos, Fl.q, Fl.isNonFinite, Finset.sum_range_succ,
      Finset.prod_range_succ]
  have hclaim : alphaVecClaimForm cexE true cexTK (fun _ => 0) cexPs cexIds
      = 1/2 := by
    norm_num [alphaVecClaimForm, dramAlphasProd, dramLogSum, cexPs, cexIds,
      cexE, cexTK, cexPos, Fl.q, Fl.isNonFinite, condLn, alphaVec, alphaVecF,
      alphaVecBody, alphaXY, alphaCore, Finset.Icc_self,
      Finset.sum_range_succ, Finset.prod_range_succ]
  rw [hcode, hclaim]
  norm_num

/-!
The sampler driver: MetropolisHastingsSG::generateFullChain.  The single
sub-environment path is modelled (the barrier branch for MPI slave ranks is
inter-process plumbing).  Output of chain data to files, display output and
timers are not modelled.  Three ghost fields record observable history:
amTrace (the arguments of every updateAdaptedCovMatrix call), callTrace
(the argument of every target evaluator call) and drawTrace (the
out-of-support flag of every realizer draw, redrawn candidates included).
-/

/-- The counter fields of MHRawChainInfoStruct (timers omitted). -/
structure MHRawChainInfo where
  numTargetCalls : ℕ
  numDRs : ℕ
  numOutOfTargetSupport : ℕ
  numOutOfTargetSupportInDR : ℕ
  numRejections : ℕ
deriving DecidableEq, Repr

/-- reset() -/
def MHRawChainInfo.reset : MHRawChainInfo := ⟨0, 0, 0, 0, 0⟩

/-- The return of P_M::chol(): 0, UQ_MATRIX_IS_NOT_POS_DEFINITE_RC, or any
other nonzero code (the last is a fatal abort at the call sites). -/
inductive CholRC where
  | ok
  | notPosDefinite
  | otherError
deriving DecidableEq, Repr

/-- Abstract matrix operations used by the adaptive-Metropolis logic. -/
structure MatOps (Mat : Type) where
  matrixProduct : ℚ → ℚ → Mat
  add : Mat → Mat → Mat
  smul : ℚ → Mat → Mat
  divs : Mat → ℚ → Mat
  diag : ℚ → Mat
  zeroM : Mat
  chol : Mat → CholRC

/-- The UQ_FATAL_TEST_MACRO aborts reachable from inside the chain loop,
plus the model artifact randomnessExhausted (the explicit random streams ran
out while the source would keep drawing). -/
inductive StepError where
  | invalidPreComputingPosition
  | invalidCholFirst
  | invalidCholSecond
  | amSeedTooSmall
  | amUpdateEmpty
  | amUpdateFirstIdZero
  | randomnessExhausted
deriving DecidableEq, Repr

/-- Errors of the whole generation. -/
inductive MHError where
  | invalidInitialPoint
  | step (e : StepError)
deriving DecidableEq, Repr

/-- The options relevant to the generation loop. -/
structure MhOptionsValues where
  drMaxNumExtraStages : ℕ
  drDuringAmNonAdaptiveInt : Bool
  tkUseLocalHessian : Bool
  amInitialNonAdaptInterval : ℕ
  amAdaptInterval : ℕ
  amEta : ℚ
  amEpsilon : ℚ
  putOutOfBoundsInChain : Bool

/-- The target pdf with its synchronizer: domain membership and
callFunction (returning the logLikelihood side output and the raw value
whose conversion gives the log-target). -/
structure TargetModel where
  contains : ℚ → Bool
  callFunction : ℚ → Fl × Fl

/-- The state threaded through the chain loop. -/
structure LoopState (Mat : Type) where
  chain : List ℚ
  currentPositionData : MarkovChainPositionData
  props : List ℚ
  uniforms : List ℚ
  info : MHRawChainInfo
  pre : ℕ → ℚ
  tkCov : Mat
  lastChainSize : ℚ
  lastMean : Option ℚ
  lastAdaptedCovMatrix : Option Mat
  amTrace : List (ℕ × ℕ × List ℚ)
  callTrace : List ℚ
  drawTrace : List Bool

/-- The keepGeneratingCandidates loop: realizer draws are consumed from the
stream until the draw may be kept (always the first one under
putOutOfBoundsInChain, else the first in-support one).  Returns the
candidate, its out-of-support flag, the rest of the stream and the
out-of-support flags of every draw made; none models stream exhaustion while
the source loop would continue drawing. -/
def genCandidate (putOutOfBoundsInChain : Bool) (contains : ℚ → Bool) :
    List ℚ → Option (ℚ × Bool × List ℚ × List Bool)
  | [] => none
  | p :: rest =>
    let outOfTargetSupport := !contains p
    if putOutOfBoundsInChain || !outOfTargetSupport then
      some (p, outOfTargetSupport, rest, [outOfTargetSupport])
    else
      match genCandidate putOutOfBoundsInChain contains rest with
      | none => none
      | some (c, o, r, flags) => some (c, o, r, outOfTargetSupport :: flags)

/-- The evaluate step for a kept candidate: out-of-support candidates skip
the evaluator and get minus-infinity log values; in-support candidates call
it (the singleton list returns the call argument for the ghost trace). -/
def evalCandidate (conv : Bool) (target : TargetModel) (v : ℚ)
    (outOfTargetSupport : Bool) : MarkovChainPositionData × List ℚ :=
  if outOfTargetSupport then
    (⟨v, true, .ninf, .ninf⟩, [])
  else
    let r := target.callFunction v
    (⟨v, false, r.1, flCondLn conv r.2⟩, [v])

/-- The state of the delayed-rejection while loop at Point 3/6. -/
structure DrState where
  stageId : ℕ
  validPreComputingPosition : Bool
  accept : Bool
  drPositionsData : List MarkovChainPositionData
  tkStageIds : List ℕ
  currentCandidateData : MarkovChainPositionData
  pre : ℕ → ℚ
  props : List ℚ
  uniforms : List ℚ
  info : MHRawChainInfo
  drawTrace : List Bool
  callTrace : List ℚ

/-- The delayed-rejection while loop.  One fuel unit per iteration; the
driver passes drMaxNumExtraStages, which bounds the iteration count because
stageId strictly increases up to that bound. -/
def drLoop (E : ℚ → ℚ) (conv : Bool) (tk : TKGroup) (target : TargetModel)
    (putOutOfBoundsInChain : Bool) (drMaxNumExtraStages : ℕ) :
    ℕ → DrState → Option DrState
  | 0, st =>
    if st.validPreComputingPosition && !st.accept &&
        st.stageId < drMaxNumExtraStages then none else some st
  | fuel + 1, st =>
    if st.validPreComputingPosition && !st.accept &&
        st.stageId < drMaxNumExtraStages then
      let info1 := { st.info with numDRs := st.info.numDRs + 1 }
      let stageId := st.stageId + 1
      match genCandidate putOutOfBoundsInChain target.contains st.props with
      | none => none
      | some (tmpVecValues, outOfTargetSupport, props1, flags) =>
        let valid := tk.setPreCompValid tmpVecValues (stageId + 1)
        let pre1 : ℕ → ℚ :=
          fun n => if n = stageId + 1 then tmpVecValues else st.pre n
        let info2 :=
          if outOfTargetSupport then
            { info1 with
              numOutOfTargetSupportInDR := info1.numOutOfTargetSupportInDR + 1 }
          else { info1 with numTargetCalls := info1.numTargetCalls + 1 }
        let ec := evalCandidate conv target tmpVecValues outOfTargetSupport
        let currentCandidateData := ec.1
        let drPositionsData := st.drPositionsData ++ [currentCandidateData]
        let tkStageIds := st.tkStageIds ++ [stageId + 1]
        let au :=
          if outOfTargetSupport then (st.accept, st.uniforms)
          else
            acceptAlpha (alphaVec E conv tk pre1 drPositionsData tkStageIds)
              st.uniforms
        drLoop E conv tk target putOutOfBoundsInChain drMaxNumExtraStages fuel
          { stageId := stageId, validPreComputingPosition := valid,
            accept := au.1, drPositionsData := drPositionsData,
            tkStageIds := tkStageIds,
            currentCandidateData := currentCandidateData,
            pre := pre1, props := props1, uniforms := au.2, info := info2,
            drawTrace := st.drawTrace ++ flags,
            callTrace := st.callTrace ++ ec.2 }
    else some st

/-- MetropolisHastingsSG::updateAdaptedCovMatrix (the parameter space is
one-dimensional in the model, so subMeanPlain is the arithmetic mean and
matrixProduct the abstract outer product).  Returns the new
(lastChainSize, lastMean, lastAdaptedCovMatrix). -/
def updateAdaptedCovMatrix {Mat : Type} (ops : MatOps Mat)
    (pChain : List ℚ) (idOfFirstPositionInSubChain : ℕ)
    (lastChainSize : ℚ) (lastMean : ℚ) (lastAdaptedCovMatrix : Mat) :
    Except StepError (ℚ × ℚ × Mat) :=
  let doubleSubChainSize : ℚ := pChain.length
  if lastChainSize = 0 then
    if pChain.length < 2 then .error .amSeedTooSmall
    else
      let mean := pChain.sum / doubleSubChainSize
      let cov0 := ops.smul (-doubleSubChainSize) (ops.matrixProduct mean mean)
      let cov1 := pChain.foldl (fun acc x => ops.add acc (ops.matrixProduct x x)) cov0
      let cov := ops.divs cov1 (doubleSubChainSize - 1)
      .ok (lastChainSize + doubleSubChainSize, mean, cov)
  else
    if pChain.length < 1 then .error .amUpdateEmpty
    else if idOfFirstPositionInSubChain < 1 then .error .amUpdateFirstIdZero
    else
      let mc := pChain.enum.foldl
        (fun (acc : ℚ × Mat) (p : ℕ × ℚ) =>
          let doubleCurrentId : ℚ := (idOfFirstPositionInSubChain + p.1 : ℕ)
          let diffVec := p.2 - acc.1
          let ratio1 := 1 - 1 / doubleCurrentId
          let ratio2 := 1 / (1 + doubleCurrentId)
          (acc.1 + ratio2 * diffVec,
           ops.add (ops.smul ratio1 acc.2)
             (ops.smul ratio2 (ops.matrixProduct diffVec diffVec))))
        (lastMean, lastAdaptedCovMatrix)
      .ok (lastChainSize + doubleSubChainSize, mc.1, mc.2)

/-- The proposal-covariance refresh at an adaptation event: Cholesky is
attempted on lastAdaptedCovMatrix itself; on a not-positive-definite
failure it is retried on lastAdaptedCovMatrix plus amEpsilon times the
identity; on a second such failure the TK covariance is left unchanged and
no error is raised; on success the TK law covariance becomes amEta times
the matrix whose factorisation succeeded.  Any other Cholesky return code
is a fatal abort. -/
def amRefresh {Mat : Type} (ops : MatOps Mat) (amEta amEpsilon : ℚ)
    (lastAdaptedCovMatrix : Mat) (tkCov : Mat) : Except StepError Mat :=
  let tmpChol := lastAdaptedCovMatrix
  let attemptedMatrix := tmpChol
  match ops.chol tmpChol with
  | .ok => .ok (ops.smul amEta attemptedMatrix)
  | .notPosDefinite =>
    let tmpChol2 := ops.add lastAdaptedCovMatrix (ops.diag amEpsilon)
    let attemptedMatrix2 := tmpChol2
    match ops.chol tmpChol2 with
    | .ok => .ok (ops.smul amEta attemptedMatrix2)
    | .notPosDefinite => .ok tkCov
    | .otherError => .error .invalidCholSecond
  | .otherError => .error .invalidCholFirst

/-- Modelled from the spec's words (claim C5): compute the scaled candidate
C_new = eta times last_cov and attempt Cholesky factorisation of it; if it
fails retry on last_cov + epsilon I; if the second attempt also fails skip
the update and retain the prior TK covariance; otherwise replace the TK's
base covariance with C_new. -/
def amRefreshClaim {Mat : Type} (ops : MatOps Mat) (amEta amEpsilon : ℚ)
    (lastAdaptedCovMatrix : Mat) (tkCov : Mat) : Except StepError Mat :=
  let cNew := ops.smul amEta lastAdaptedCovMatrix
  match ops.chol cNew with
  | .ok => .ok cNew
  | .notPosDefinite =>
    match ops.chol (ops.add lastAdaptedCovMatrix (ops.diag amEpsilon)) with
    | .ok => .ok cNew
    | .notPosDefinite => .ok tkCov
    | .otherError => .error .invalidCholSecond
  | .otherError => .error .invalidCholFirst

/-- Point 5/6 of the chain loop: the adaptive-Metropolis block.  Returns
the new (lastChainSize, lastMean, lastAdaptedCovMatrix, tkCov) and the
adaptation event (positionId, idOfFirstPositionInSubChain, consumed partial
chain) when one happened. -/
def amSection {Mat : Type} (ops : MatOps Mat) (opts : MhOptionsValues)
    (positionId : ℕ) (chain : List ℚ)
    (lastChainSize : ℚ) (lastMean : Option ℚ) (lastCov : Option Mat)
    (tkCov : Mat) :
    Except StepError ((ℚ × Option ℚ × Option Mat × Mat) ×
      Option (ℕ × ℕ × List ℚ)) :=
  if opts.tkUseLocalHessian = false ∧ 0 < opts.amInitialNonAdaptInterval ∧
      0 < opts.amAdaptInterval then
    let sel : ℕ × ℕ × Option ℚ × Option Mat :=
      if positionId < opts.amInitialNonAdaptInterval then
        (0, 0, lastMean, lastCov)
      else if positionId = opts.amInitialNonAdaptInterval then
        (0, opts.amInitialNonAdaptInterval + 1, some 0, some ops.zeroM)
      else
        let interval := positionId - opts.amInitialNonAdaptInterval
        if interval % opts.amAdaptInterval = 0 then
          (positionId - opts.amAdaptInterval, opts.amAdaptInterval,
            lastMean, lastCov)
        else (0, 0, lastMean, lastCov)
    let idOfFirst := sel.1
    let sz := sel.2.1
    let lastMean1 := sel.2.2.1
    let lastCov1 := sel.2.2.2
    if 0 < sz then
      let pChain := (chain.drop idOfFirst).take sz
      match updateAdaptedCovMatrix ops pChain idOfFirst lastChainSize
        (lastMean1.getD 0) (lastCov1.getD ops.zeroM) with
      | .error e => .error e
      | .ok (lcs, mean, cov) =>
        match amRefresh ops opts.amEta opts.amEpsilon cov tkCov with
        | .error e => .error e
        | .ok tkCov1 =>
          .ok ((lcs, some mean, some cov, tkCov1),
            some (positionId, idOfFirst, pChain))
    else .ok ((lastChainSize, lastMean1, lastCov1, tkCov), none)
  else .ok ((lastChainSize, lastMean, lastCov, tkCov), none)

/-- Points 1/6 to 4/6 of the chain loop for one position: propose,
evaluate, Metropolis-Hastings decision, delayed rejection, commit. -/
def mhStepCore {Mat : Type} (opts : MhOptionsValues) (E : ℚ → ℚ)
    (conv : Bool) (tk : TKGroup) (target : TargetModel)
    (positionId : ℕ) (st : LoopState Mat) :
    Except StepError (LoopState Mat) :=
  let pre1 : ℕ → ℚ :=
    fun n => if n = 0 then st.currentPositionData.vecValues else 0
  if tk.setPreCompValid st.currentPositionData.vecValues 0 = false then
    .error .invalidPreComputingPosition
  else
    match genCandidate opts.putOutOfBoundsInChain target.contains st.props with
    | none => .error .randomnessExhausted
    | some (tmpVecValues, outOfTargetSupport, props1, flags) =>
      let valid2 := tk.setPreCompValid tmpVecValues 1
      let pre2 : ℕ → ℚ := fun n => if n = 1 then tmpVecValues else pre1 n
      let info1 :=
        if outOfTargetSupport then
          { st.info with
            numOutOfTargetSupport := st.info.numOutOfTargetSupport + 1 }
        else { st.info with numTargetCalls := st.info.numTargetCalls + 1 }
      let ec := evalCandidate conv target tmpVecValues outOfTargetSupport
      let currentCandidateData := ec.1
      let au1 :=
        if outOfTargetSupport then (false, st.uniforms)
        else
          acceptAlpha
            (alphaXY E conv tk st.currentPositionData currentCandidateData 0 1)
            st.uniforms
      let drEntry :=
        au1.1 = false ∧ outOfTargetSupport = false ∧
          0 < opts.drMaxNumExtraStages
      let amGateSkip :=
        opts.drDuringAmNonAdaptiveInt = false ∧
          opts.tkUseLocalHessian = false ∧
          0 < opts.amInitialNonAdaptInterval ∧
          0 < opts.amAdaptInterval ∧
          positionId ≤ opts.amInitialNonAdaptInterval
      let drRes :=
        if drEntry ∧ ¬ amGateSkip then
          drLoop E conv tk target opts.putOutOfBoundsInChain
            opts.drMaxNumExtraStages opts.drMaxNumExtraStages
            { stageId := 0, validPreComputingPosition := valid2,
              accept := au1.1,
              drPositionsData := [st.currentPositionData, currentCandidateData],
              tkStageIds := [0, 1],
              currentCandidateData := currentCandidateData,
              pre := pre2, props := props1, uniforms := au1.2, info := info1,
              drawTrace := st.drawTrace ++ flags,
              callTrace := st.callTrace ++ ec.2 }
        else
          some
            { stageId := 0, validPreComputingPosition := valid2,
              accept := au1.1,
              drPositionsData := [st.currentPositionData, currentCandidateData],
              tkStageIds := [0, 1],
              currentCandidateData := currentCandidateData,
              pre := pre2, props := props1, uniforms := au1.2, info := info1,
              drawTrace := st.drawTrace ++ flags,
              callTrace := st.callTrace ++ ec.2 }
      match drRes with
      | none => .error .randomnessExhausted
      | some dr =>
        if dr.accept then
          .ok { st with
            chain := st.chain ++ [dr.currentCandidateData.vecValues],
            currentPositionData := dr.currentCandidateData,
            props := dr.props, uniforms := dr.uniforms, info := dr.info,
            pre := dr.pre, drawTrace := dr.drawTrace,
            callTrace := dr.callTrace }
        else
          .ok { st with
            chain := st.chain ++ [st.currentPositionData.vecValues],
            props := dr.props, uniforms := dr.uniforms,
            info := { dr.info with
              numRejections := dr.info.numRejections + 1 },
            pre := dr.pre, drawTrace := dr.drawTrace,
            callTrace := dr.callTrace }

/-- One whole iteration of the chain loop (Points 1/6 to 5/6). -/
def mhStep {Mat : Type} (ops : MatOps Mat) (opts : MhOptionsValues)
    (E : ℚ → ℚ) (conv : Bool) (tk : TKGroup) (target : TargetModel)
    (positionId : ℕ) (st : LoopState Mat) :
    Except StepError (LoopState Mat) :=
  match mhStepCore opts E conv tk target positionId st with
  | .error e => .error e
  | .ok st1 =>
    match amSection ops opts positionId st1.chain st1.lastChainSize
      st1.lastMean st1.lastAdaptedCovMatrix st1.tkCov with
    | .error e => .error e
    | .ok ((lcs, lm, lc, tkCov1), ev) =>
      .ok
        { st1 with
          lastChainSize := lcs, lastMean := lm,
          lastAdaptedCovMatrix := lc, tkCov := tkCov1,
          amTrace := st1.amTrace ++ ev.toList }

/-- The chain loop from positionId = 1 (steps counts the remaining
iterations). -/
def mhLoop {Mat : Type} (ops : MatOps Mat) (opts : MhOptionsValues)
    (E : ℚ → ℚ) (conv : Bool) (tk : TKGroup) (target : TargetModel) :
    ℕ → ℕ → LoopState Mat → Except StepError (LoopState Mat)
  | 0, _, st => .ok st
  | steps + 1, positionId, st =>
    match mhStep ops opts E conv tk target positionId st with
    | .error e => .error e
    | .ok st1 => mhLoop ops opts E conv tk target steps (positionId + 1) st1

/-- MetropolisHastingsSG::generateFullChain: the initial-point support
check (a fatal abort when violated, before anything is produced), the
initial target evaluation, and the chain loop over positions
1..chainSize-1. -/
def generateFullChain {Mat : Type} (ops : MatOps Mat)
    (opts : MhOptionsValues) (E : ℚ → ℚ) (conv : Bool) (tk : TKGroup)
    (target : TargetModel) (valuesOf1stPosition : ℚ) (chainSize : ℕ)
    (props uniforms : List ℚ) (tkCov0 : Mat) :
    Except MHError (LoopState Mat) :=
  let outOfTargetSupport := !target.contains valuesOf1stPosition
  if outOfTargetSupport then .error .invalidInitialPoint
  else
    let r := target.callFunction valuesOf1stPosition
    let currentPositionData : MarkovChainPositionData :=
      ⟨valuesOf1stPosition, false, r.1, flCondLn conv r.2⟩
    let st0 : LoopState Mat :=
      { chain := [valuesOf1stPosition],
        currentPositionData := currentPositionData,
        props := props, uniforms := uniforms,
        info := { MHRawChainInfo.reset with numTargetCalls := 1 },
        pre := fun _ => 0,
        tkCov := tkCov0, lastChainSize := 0,
        lastMean := none, lastAdaptedCovMatrix := none,
        amTrace := [], callTrace := [valuesOf1stPosition], drawTrace := [] }
    match mhLoop ops opts E conv tk target (chainSize - 1) 1 st0 with
    | .ok st => .ok st
    | .error e => .error (.step e)

/-- Trivial matrix operations on Unit, for runs where AM is off. -/
def unitOps : MatOps Unit :=
  ⟨fun _ _ => (), fun _ _ => (), fun _ _ => (), fun _ _ => (), fun _ => (),
    (), fun _ => .ok⟩

/-- One-dimensional matrix operations on the rationals: a 1 x 1 covariance
matrix is a rational, its Cholesky factorisation succeeds exactly when it is
positive. -/
def ratOps : MatOps ℚ :=
  ⟨fun x y => x * y, fun a b => a + b, fun c mm => c * mm, fun mm c => mm / c,
    fun e => e, 0, fun mm => if 0 < mm then .ok else .notPosDefinite⟩

/-- C5 counterexample: the claim attempts the first Cholesky factorisation
on the scaled candidate eta times last_cov, but the code attempts it on
last_cov itself.  On the one-dimensional operations with eta = -1,
last_cov = -2 and epsilon = 1, real 1 x 1 Cholesky (success iff positive)
makes the code skip the update (both its attempts fail on -2 and -1) while
the claimed procedure succeeds on eta times last_cov = 2 and replaces the
covariance: retained 7 against replaced 2. -/
theorem amRefresh_ne_claim :
    amRefresh ratOps (-1) 1 (-2) 7 ≠ amRefreshClaim ratOps (-1) 1 (-2) 7 := by
  norm_num [amRefresh, amRefreshClaim, ratOps]

/-- C5 (amended): at an adaptation event the Cholesky factorisation is
attempted on last_cov itself; on a not-positive-definite failure it is
retried on last_cov + epsilon I; if the second attempt also fails the AM
update is silently skipped (the TK retains its prior covariance and no
error is raised); otherwise the TK base covariance is replaced by eta times
the matrix whose factorisation succeeded. -/
theorem amRefresh_fallback_spec {Mat : Type} (ops : MatOps Mat)
    (eta eps : ℚ) (lastCov tkCov : Mat) :
    (ops.chol lastCov = .ok →
      amRefresh ops eta eps lastCov tkCov = .ok (ops.smul eta lastCov))
    ∧ (ops.chol lastCov = .notPosDefinite →
        ops.chol (ops.add lastCov (ops.diag eps)) = .ok →
        amRefresh ops eta eps lastCov tkCov =
          .ok (ops.smul eta (ops.add lastCov (ops.diag eps))))
    ∧ (ops.chol lastCov = .notPosDefinite →
        ops.chol (ops.add lastCov (ops.diag eps)) = .notPosDefinite →
        amRefresh ops eta eps lastCov tkCov = .ok tkCov) := by
  refine ⟨?_, ?_, ?_⟩
  · intro h1
    simp [amRefresh, h1]
  · intro h1 h2
    simp [amRefresh, h1, h2]
  · intro h1 h2
    simp [amRefresh, h1, h2]

/-- Witness for the fallback clause of amRefresh_fallback_spec at the
concrete one-dimensional input of the counterexample. -/
theorem amRefresh_fallback_spec_witness :
    amRefresh ratOps (-1) 1 (-2) 7 = .ok 7 :=
  (amRefresh_fallback_spec ratOps (-1) 1 (-2) 7).2.2
    (by norm_num [ratOps]) (by norm_num [ratOps])

/-- C6: an out-of-support initial point is a fatal InvalidInitialPoint
before any chain position is produced (the error carries no chain), and an
in-support initial point always gets past the check (no later abort is
InvalidInitialPoint). -/
theorem generateFullChain_initial_point {Mat : Type} (ops : MatOps Mat)
    (opts : MhOptionsValues) (E : ℚ → ℚ) (conv : Bool) (tk : TKGroup)
    (target : TargetModel) (x0 : ℚ) (chainSize : ℕ)
    (props uniforms : List ℚ) (tkCov0 : Mat) :
    (target.contains x0 = false →
      generateFullChain ops opts E conv tk target x0 chainSize props
        uniforms tkCov0 = .error .invalidInitialPoint)
    ∧ (target.contains x0 = true →
      generateFullChain ops opts E conv tk target x0 chainSize props
        uniforms tkCov0 ≠ .error .invalidInitialPoint) := by
  constructor
  · intro h
    simp [generateFullChain, h]
  · intro h
    simp only [generateFullChain, h, Bool.not_true, Bool.false_eq_true,
      if_false]
    cases hm : mhLoop ops opts E conv tk target (chainSize - 1) 1 _ with
    | ok st => simp
    | error e => simp

/-- The target model used by witnesses whose support is empty. -/
def tgtNone : TargetModel := ⟨fun _ => false, fun _ => (.fin 0, .fin 0)⟩

/-- Witness for generateFullChain_initial_point: with an empty support the
generation fails with InvalidInitialPoint. -/
theorem generateFullChain_initial_point_witness :
    generateFullChain unitOps ⟨0, false, false, 0, 0, 1, 1, false⟩
      (fun _ => 1) true cexTK tgtNone 0 10 [] [] () =
      .error .invalidInitialPoint :=
  (generateFullChain_initial_point unitOps ⟨0, false, false, 0, 0, 1, 1, false⟩
      (fun _ => 1) true cexTK tgtNone 0 10 [] [] ()).1 rfl

theorem amSection_disabled {Mat : Type} (ops : MatOps Mat)
    (opts : MhOptionsValues) (pid : ℕ) (chain : List ℚ) (lcs : ℚ)
    (lm : Option ℚ) (lc : Option Mat) (tkCov : Mat)
    (h : opts.tkUseLocalHessian = true ∨ opts.amInitialNonAdaptInterval = 0
        ∨ opts.amAdaptInterval = 0) :
    amSection ops opts pid chain lcs lm lc tkCov =
      .ok ((lcs, lm, lc, tkCov), none) := by
  rcases h with h | h | h <;> simp [amSection, h]

/-- Points 1/6 to 4/6 do not touch the adaptive-Metropolis state. -/
theorem mhStepCore_am_fields {Mat : Type} (opts : MhOptionsValues)
    (E : ℚ → ℚ) (conv : Bool) (tk : TKGroup) (target : TargetModel)
    (pid : ℕ) (st st' : LoopState Mat)
    (h : mhStepCore opts E conv tk target pid st = .ok st') :
    st'.tkCov = st.tkCov ∧ st'.lastChainSize = st.lastChainSize
      ∧ st'.lastMean = st.lastMean
      ∧ st'.lastAdaptedCovMatrix = st.lastAdaptedCovMatrix
      ∧ st'.amTrace = st.amTrace := by
  unfold mhStepCore at h
  dsimp only at h
  split at h
  · simp at h
  · split at h
    · simp at h
    · rename_i heq
      split at h
      · simp at h
      · split at h <;>
          [skip; skip] <;>
          · rw [Except.ok.injEq] at h
            subst h
            simp

/-- An iteration with adaptation disabled is exactly its Points 1/6 to
4/6. -/
theorem mhStep_am_disabled {Mat : Type} (ops : MatOps Mat)
    (opts : MhOptionsValues) (E : ℚ → ℚ) (conv : Bool) (tk : TKGroup)
    (target : TargetModel) (pid : ℕ) (st : LoopState Mat)
    (h : opts.tkUseLocalHessian = true ∨ opts.amInitialNonAdaptInterval = 0
        ∨ opts.amAdaptInterval = 0) :
    mhStep ops opts E conv tk target pid st =
      mhStepCore opts E conv tk target pid st := by
  unfold mhStep
  cases hc : mhStepCore opts E conv tk target pid st with
  | error e => rfl
  | ok st1 =>
    dsimp only
    rw [amSection_disabled ops opts pid st1.chain st1.lastChainSize
      st1.lastMean st1.lastAdaptedCovMatrix st1.tkCov h]
    simp

theorem mhLoop_am_disabled {Mat : Type} (ops : MatOps Mat)
    (opts : MhOptionsValues) (E : ℚ → ℚ) (conv : Bool) (tk : TKGroup)
    (target : TargetModel)
    (h : opts.tkUseLocalHessian = true ∨ opts.amInitialNonAdaptInterval = 0
        ∨ opts.amAdaptInterval = 0) :
    ∀ (steps pid : ℕ) (st st' : LoopState Mat),
      mhLoop ops opts E conv tk target steps pid st = .ok st' →
      st'.tkCov = st.tkCov ∧ st'.lastChainSize = st.lastChainSize
        ∧ st'.lastMean = st.lastMean
        ∧ st'.lastAdaptedCovMatrix = st.lastAdaptedCovMatrix
        ∧ st'.amTrace = st.amTrace := by
  intro steps
  induction steps with
  | zero =>
    intro pid st st' hh
    simp only [mhLoop] at hh
    rw [Except.ok.injEq] at hh
    subst hh
    exact ⟨rfl, rfl, rfl, rfl, rfl⟩
  | succ n ih =>
    intro pid st st' hh
    simp only [mhLoop] at hh
    rw [mhStep_am_disabled ops opts E conv tk target pid st h] at hh
    cases hc : mhStepCore opts E conv tk target pid st with
    | error e => rw [hc] at hh; simp at hh
    | ok st1 =>
      rw [hc] at hh
      have h1 := mhStepCore_am_fields opts E conv tk target pid st st1 hc
      have h2 := ih (pid + 1) st1 st' hh
      exact ⟨h2.1.trans h1.1, h2.2.1.trans h1.2.1,
        h2.2.2.1.trans h1.2.2.1, h2.2.2.2.1.trans h1.2.2.2.1,
        h2.2.2.2.2.trans h1.2.2.2.2⟩

/-- C10: adaptive Metropolis runs only with the scaled-covariance TK and
both am intervals positive: whenever the local-Hessian TK is selected or
either interval is zero, a completed run has an empty adaptation-event
trace, last_mean and last_cov were never allocated, the folded sample count
stays zero and the TK proposal covariance still is the initial one. -/
theorem am_disabled_no_adaptation {Mat : Type} (ops : MatOps Mat)
    (opts : MhOptionsValues) (E : ℚ → ℚ) (conv : Bool) (tk : TKGroup)
    (target : TargetModel) (x0 : ℚ) (chainSize : ℕ)
    (props uniforms : List ℚ) (tkCov0 : Mat) (st' : LoopState Mat)
    (h : opts.tkUseLocalHessian = true ∨ opts.amInitialNonAdaptInterval = 0
        ∨ opts.amAdaptInterval = 0)
    (hok : generateFullChain ops opts E conv tk target x0 chainSize props
        uniforms tkCov0 = .ok st') :
    st'.amTrace = [] ∧ st'.lastMean = none
      ∧ st'.lastAdaptedCovMatrix = none ∧ st'.tkCov = tkCov0
      ∧ st'.lastChainSize = 0 := by
  unfold generateFullChain at hok
  dsimp only at hok
  split at hok
  · simp at hok
  · split at hok
    · rename_i st1 hm
      rw [Except.ok.injEq] at hok
      subst hok
      have := mhLoop_am_disabled ops opts E conv tk target h
        (chainSize - 1) 1 _ st1 hm
      exact ⟨this.2.2.2.2, this.2.2.1, this.2.2.2.1, this.1, this.2.1⟩
    · simp at hok

/-- The target model whose support is everything and whose log target is
identically zero. -/
def tgtZero : TargetModel := ⟨fun _ => true, fun _ => (.fin 0, .fin 0)⟩

/-- Witness for am_disabled_no_adaptation: a one-position run with the
local-Hessian TK selected keeps the adaptation state empty. -/
theorem am_disabled_no_adaptation_witness :
    (generateFullChain ratOps ⟨0, false, true, 5, 5, 1, 1, false⟩
        (fun _ => 1) true cexTK tgtZero 0 1 [] [] 9 = .ok
        { chain := [0],
          currentPositionData := ⟨0, false, .fin 0, .fin 0⟩,
          props := [], uniforms := [],
          info := { MHRawChainInfo.reset with numTargetCalls := 1 },
          pre := fun _ => 0,
          tkCov := 9, lastChainSize := 0,
          lastMean := none, lastAdaptedCovMatrix := none,
          amTrace := [], callTrace := [0], drawTrace := [] })
    ∧ ([] : List (ℕ × ℕ × List ℚ)) = [] ∧ (9 : ℚ) = 9 := by
  have hr : generateFullChain ratOps ⟨0, false, true, 5, 5, 1, 1, false⟩
      (fun _ => 1) true cexTK tgtZero 0 1 [] [] 9 = .ok
      { chain := [0],
        currentPositionData := ⟨0, false, .fin 0, .fin 0⟩,
        props := [], uniforms := [],
        info := { MHRawChainInfo.reset with numTargetCalls := 1 },
        pre := fun _ => 0,
        tkCov := 9, lastChainSize := 0,
        lastMean := none, lastAdaptedCovMatrix := none,
        amTrace := [], callTrace := [0], drawTrace := [] } := by
    simp [generateFullChain, mhLoop, tgtZero, flCondLn]
  have hw := am_disabled_no_adaptation ratOps
    ⟨0, false, true, 5, 5, 1, 1, false⟩ (fun _ => 1) true cexTK tgtZero
    0 1 [] [] 9 _ (Or.inl rfl) hr
  exact ⟨hr, rfl, rfl⟩

theorem genCandidate_some (putOOB : Bool) (contains : ℚ → Bool) :
    ∀ (props : List ℚ) (c : ℚ) (o : Bool) (r : List ℚ) (flags : List Bool),
      genCandidate putOOB contains props = some (c, o, r, flags) →
      o = !contains c
      ∧ (putOOB = true → flags = [o])
      ∧ (putOOB = false → o = false) := by
  intro props
  induction props with
  | nil =>
    intro c o r flags h
    simp [genCandidate] at h
  | cons p rest ih =>
    intro c o r flags h
    simp only [genCandidate] at h
    split at h
    · rename_i hcond
      rw [Option.some.injEq] at h
      simp only [Prod.mk.injEq] at h
      obtain ⟨h1, h2, h3, h4⟩ := h
      subst h1; subst h2; subst h3; subst h4
      refine ⟨rfl, fun _ => rfl, ?_⟩
      intro hf
      rw [hf] at hcond
      simpa using hcond
    · cases hg : genCandidate putOOB contains rest with
      | none => rw [hg] at h; simp at h
      | some tup =>
        obtain ⟨c1, o1, r1, flags1⟩ := tup
        rw [hg] at h
        dsimp only at h
        rw [Option.some.injEq] at h
        simp only [Prod.mk.injEq] at h
        obtain ⟨h1, h2, h3, h4⟩ := h
        subst h1; subst h2; subst h3
        have hih := ih _ _ _ _ hg
        rename_i hcond
        refine ⟨hih.1, ?_, hih.2.2⟩
        intro hp
        rw [hp] at hcond
        simp at hcond

/-- The facts about one run of the delayed-rejection loop needed by the
run-level accounting invariants. -/
theorem drLoop_facts (E : ℚ → ℚ) (conv : Bool) (tk : TKGroup)
    (target : TargetModel) (putOOB : Bool) (K : ℕ) :
    ∀ (fuel : ℕ) (st st' : DrState),
      drLoop E conv tk target putOOB K fuel st = some st' →
      st'.info.numOutOfTargetSupport = st.info.numOutOfTargetSupport
      ∧ st'.info.numRejections = st.info.numRejections
      ∧ st.info.numDRs ≤ st'.info.numDRs
      ∧ st'.info.numOutOfTargetSupportInDR + st.info.numDRs ≤
          st.info.numOutOfTargetSupportInDR + st'.info.numDRs
      ∧ (putOOB = true →
          st'.info.numOutOfTargetSupportInDR + st.drawTrace.count true =
            st.info.numOutOfTargetSupportInDR + st'.drawTrace.count true)
      ∧ (putOOB = false →
          st'.info.numOutOfTargetSupportInDR =
            st.info.numOutOfTargetSupportInDR)
      ∧ ((∀ x ∈ st.callTrace, target.contains x = true) →
          ∀ x ∈ st'.callTrace, target.contains x = true) := by
  intro fuel
  induction fuel with
  | zero =>
    intro st st' h
    simp only [drLoop] at h
    split at h
    · simp at h
    · rw [Option.some.injEq] at h
      subst h
      exact ⟨rfl, rfl, le_refl _, le_refl _, fun _ => rfl, fun _ => rfl,
        fun hc => hc⟩
  | succ n ih =>
    intro st st' h
    simp only [drLoop] at h
    split at h
    · cases hg : genCandidate putOOB target.contains st.props with
      | none => rw [hg] at h; simp at h
      | some tup =>
        obtain ⟨v, o, r, flags⟩ := tup
        rw [hg] at h
        dsimp only at h
        have hgf := genCandidate_some putOOB target.contains st.props
          v o r flags hg
        have hrec := ih _ st' h
        dsimp only at hrec
        cases o with
        | false =>
          simp only [Bool.false_eq_true, if_false, ite_false] at hrec
          obtain ⟨f1, f2, f3, f4, f5, f6, f7⟩ := hrec
          refine ⟨f1, f2, by omega, by omega, ?_, f6, ?_⟩
          · intro hp
            have := f5 hp
            rw [hgf.2.1 hp] at this
            simp [List.count_append] at this
            omega
          · intro hc
            refine f7 ?_
            intro x hx
            simp only [evalCandidate, Bool.false_eq_true, if_false,
              ite_false, List.mem_append] at hx
            rcases hx with hx | hx
            · exact hc x hx
            · simp only [List.mem_singleton] at hx
              subst hx
              have := hgf.1
              cases hcv : target.contains x
              · rw [hcv] at this; simp at this
              · rfl
        | true =>
          simp only [if_true, ite_true] at hrec
          obtain ⟨f1, f2, f3, f4, f5, f6, f7⟩ := hrec
          refine ⟨f1, f2, by omega, by omega, ?_, ?_, ?_⟩
          · intro hp
            have := f5 hp
            rw [hgf.2.1 hp] at this
            simp [List.count_append] at this
            omega
          · intro hp
            exact absurd (hgf.2.2 hp) (by simp)
          · intro hc
            refine f7 ?_
            intro x hx
            simp only [evalCandidate, if_true, ite_true,
              List.append_nil] at hx
            exact hc x hx
    · rw [Option.some.injEq] at h
      subst h
      exact ⟨rfl, rfl, le_refl _, le_refl _, fun _ => rfl, fun _ => rfl,
        fun hc => hc⟩

/-- Invariant preservation across Points 1/6 to 4/6 of one iteration:
the out-of-support counters stay below the rejection and DR counters, the
out-of-support counters match the flagged draws (under
putOutOfBoundsInChain) or stay zero (without it), and evaluator calls stay
inside the support. -/
theorem mhStepCore_inv {Mat : Type} (opts : MhOptionsValues) (E : ℚ → ℚ)
    (conv : Bool) (tk : TKGroup) (target : TargetModel) (pid : ℕ)
    (st st' : LoopState Mat)
    (h : mhStepCore opts E conv tk target pid st = .ok st') :
    (st.info.numOutOfTargetSupport ≤ st.info.numRejections →
      st'.info.numOutOfTargetSupport ≤ st'.info.numRejections)
    ∧ (st.info.numOutOfTargetSupportInDR ≤ st.info.numDRs →
      st'.info.numOutOfTargetSupportInDR ≤ st'.info.numDRs)
    ∧ (opts.putOutOfBoundsInChain = true →
        st.info.numOutOfTargetSupport + st.info.numOutOfTargetSupportInDR
          = st.drawTrace.count true →
        st'.info.numOutOfTargetSupport + st'.info.numOutOfTargetSupportInDR
          = st'.drawTrace.count true)
    ∧ (opts.putOutOfBoundsInChain = false →
        st.info.numOutOfTargetSupport = 0 →
        st.info.numOutOfTargetSupportInDR = 0 →
        st'.info.numOutOfTargetSupport = 0 ∧
          st'.info.numOutOfTargetSupportInDR = 0)
    ∧ ((∀ x ∈ st.callTrace, target.contains x = true) →
        ∀ x ∈ st'.callTrace, target.contains x = true) := by
  unfold mhStepCore at h
  dsimp only at h
  split at h
  · simp at h
  cases hg : genCandidate opts.putOutOfBoundsInChain target.contains
      st.props with
  | none => rw [hg] at h; simp at h
  | some tup =>
    obtain ⟨v, o, r, flags⟩ := tup
    rw [hg] at h
    have hgf := genCandidate_some _ _ _ _ _ _ _ hg
    cases o with
    | true =>
      simp only [if_true, ite_true, Bool.true_eq_false, Bool.false_eq_true,
        if_false, ite_false, false_and, and_false, not_false_iff, and_true,
        evalCandidate] at h
      rw [Except.ok.injEq] at h
      subst h
      dsimp only
      refine ⟨by omega, by omega, ?_, ?_, ?_⟩
      · intro hp heq
        rw [hgf.2.1 hp]
        simp [List.count_append]
        omega
      · intro hp
        exact absurd (hgf.2.2 hp) (by simp)
      · intro hc x hx
        simp only [List.append_nil] at hx
        exact hc x hx
    | false =>
      have hcv : target.contains v = true := by
        have := hgf.1
        cases hcc : target.contains v
        · rw [hcc] at this; simp at this
        · rfl
      simp only [Bool.false_eq_true, if_false, ite_false, evalCandidate] at h
      -- h matches on (if drEntry-and-not-gate then drLoop ... else some stInit)
      split at h
      · simp at h
      · rename_i dr hd
        split at hd
        · -- the DR loop ran
          have hdr := drLoop_facts E conv tk target
            opts.putOutOfBoundsInChain opts.drMaxNumExtraStages
            opts.drMaxNumExtraStages _ dr hd
          dsimp only at hdr
          obtain ⟨f1, f2, f3, f4, f5, f6, f7⟩ := hdr
          split at h <;>
            · rw [Except.ok.injEq] at h
              subst h
              dsimp only
              refine ⟨by omega, by omega, ?_, ?_, ?_⟩
              · intro hp heq
                have h5 := f5 hp
                rw [hgf.2.1 hp] at h5
                simp [List.count_append] at h5
                omega
              · intro hp hz1 hz2
                have h6 := f6 hp
                constructor
                · omega
                · omega
              · intro hc x hx
                refine f7 ?_ x hx
                intro y hy
                simp only [List.mem_append, List.mem_singleton] at hy
                rcases hy with hy | hy
                · exact hc y hy
                · subst hy; exact hcv
        · -- no DR this step
          rw [Option.some.injEq] at hd
          subst hd
          dsimp only at h
          split at h <;>
            · rw [Except.ok.injEq] at h
              subst h
              dsimp only
              refine ⟨by omega, by omega, ?_, ?_, ?_⟩
              · intro hp heq
                rw [hgf.2.1 hp]
                simp [List.count_append]
                omega
              · intro hp hz1 hz2
                exact ⟨by omega, by omega⟩
              · intro hc x hx
                simp only [List.mem_append, List.mem_singleton] at hx
                rcases hx with hx | hx
                · exact hc x hx
                · subst hx; exact hcv

/-- Point 5/6 only rewrites the adaptation fields: the counters, the chain
and the ghost traces of draws and evaluator calls pass through. -/
theorem mhStep_core_fields {Mat : Type} (ops : MatOps Mat)
    (opts : MhOptionsValues) (E : ℚ → ℚ) (conv : Bool) (tk : TKGroup)
    (target : TargetModel) (pid : ℕ) (st st' : LoopState Mat)
    (h : mhStep ops opts E conv tk target pid st = .ok st') :
    ∃ st1, mhStepCore opts E conv tk target pid st = .ok st1
      ∧ st'.info = st1.info ∧ st'.drawTrace = st1.drawTrace
      ∧ st'.callTrace = st1.callTrace ∧ st'.chain = st1.chain := by
  unfold mhStep at h
  split at h
  · simp at h
  · rename_i st1 hc
    split at h
    · simp at h
    · rw [Except.ok.injEq] at h
      subst h
      exact ⟨st1, hc, rfl, rfl, rfl, rfl⟩

/-- The run-level accounting invariants, by induction over the chain
loop. -/
theorem mhLoop_inv {Mat : Type} (ops : MatOps Mat) (opts : MhOptionsValues)
    (E : ℚ → ℚ) (conv : Bool) (tk : TKGroup) (target : TargetModel) :
    ∀ (steps pid : ℕ) (st st' : LoopState Mat),
      mhLoop ops opts E conv tk target steps pid st = .ok st' →
      (st.info.numOutOfTargetSupport ≤ st.info.numRejections →
        st'.info.numOutOfTargetSupport ≤ st'.info.numRejections)
      ∧ (st.info.numOutOfTargetSupportInDR ≤ st.info.numDRs →
        st'.info.numOutOfTargetSupportInDR ≤ st'.info.numDRs)
      ∧ (opts.putOutOfBoundsInChain = true →
          st.info.numOutOfTargetSupport + st.info.numOutOfTargetSupportInDR
            = st.drawTrace.count true →
          st'.info.numOutOfTargetSupport + st'.info.numOutOfTargetSupportInDR
            = st'.drawTrace.count true)
      ∧ (opts.putOutOfBoundsInChain = false →
          st.info.numOutOfTargetSupport = 0 →
          st.info.numOutOfTargetSupportInDR = 0 →
          st'.info.numOutOfTargetSupport = 0 ∧
            st'.info.numOutOfTargetSupportInDR = 0)
      ∧ ((∀ x ∈ st.callTrace, target.contains x = true) →
          ∀ x ∈ st'.callTrace, target.contains x = true) := by
  intro steps
  induction steps with
  | zero =>
    intro pid st st' h
    simp only [mhLoop] at h
    rw [Except.ok.injEq] at h
    subst h
    exact ⟨fun a => a, fun a => a, fun _ a => a, fun _ a b => ⟨a, b⟩,
      fun a => a⟩
  | succ n ih =>
    intro pid st st' h
    simp only [mhLoop] at h
    split at h
    · simp at h
    · rename_i st1 hs
      obtain ⟨stc, hc, e1, e2, e3, e4⟩ := mhStep_core_fields ops opts E conv
        tk target pid st st1 hs
      have hstep := mhStepCore_inv opts E conv tk target pid st stc hc
      have hrest := ih (pid + 1) st1 st' h
      rw [e1, e2, e3] at hrest
      exact ⟨fun a => hrest.1 (hstep.1 a),
        fun a => hrest.2.1 (hstep.2.1 a),
        fun hp a => hrest.2.2.1 hp (hstep.2.2.1 hp a),
        fun hp a b =>
          hrest.2.2.2.1 hp ((hstep.2.2.2.1 hp a b).1)
            ((hstep.2.2.2.1 hp a b).2),
        fun a => hrest.2.2.2.2 (hstep.2.2.2.2 a)⟩

/-- C8 (amended): in every completed run,
num_out_of_support + num_out_of_support_in_dr <= num_rejections + num_drs
(each out-of-support retained main candidate forces a rejection of its
step, and each out-of-support retained DR candidate sits in a DR stage);
when put_out_of_bounds_in_chain is set the sum equals the number of
proposals drawn whose out_of_support flag was true, over the main
propose step and the DR stages; without that option out-of-support
candidates are redrawn rather than retained and both counters stay 0. -/
theorem outOfSupport_accounting {Mat : Type} (ops : MatOps Mat)
    (opts : MhOptionsValues) (E : ℚ → ℚ) (conv : Bool) (tk : TKGroup)
    (target : TargetModel) (x0 : ℚ) (chainSize : ℕ)
    (props uniforms : List ℚ) (tkCov0 : Mat) (st' : LoopState Mat)
    (hok : generateFullChain ops opts E conv tk target x0 chainSize props
        uniforms tkCov0 = .ok st') :
    st'.info.numOutOfTargetSupport + st'.info.numOutOfTargetSupportInDR ≤
      st'.info.numRejections + st'.info.numDRs
    ∧ (opts.putOutOfBoundsInChain = true →
        st'.info.numOutOfTargetSupport + st'.info.numOutOfTargetSupportInDR
          = st'.drawTrace.count true)
    ∧ (opts.putOutOfBoundsInChain = false →
        st'.info.numOutOfTargetSupport +
          st'.info.numOutOfTargetSupportInDR = 0) := by
  unfold generateFullChain at hok
  dsimp only at hok
  split at hok
  · simp at hok
  · split at hok
    · rename_i st1 hm
      rw [Except.ok.injEq] at hok
      subst hok
      have := mhLoop_inv ops opts E conv tk target (chainSize - 1) 1 _ st1 hm
      dsimp only at this
      obtain ⟨f1, f2, f3, f4, f5⟩ := this
      have g1 := f1 (by simp [MHRawChainInfo.reset])
      have g2 := f2 (by simp [MHRawChainInfo.reset])
      refine ⟨by omega, ?_, ?_⟩
      · intro hp
        exact f3 hp (by simp [MHRawChainInfo.reset])
      · intro hp
        have := f4 hp (by simp [MHRawChainInfo.reset])
          (by simp [MHRawChainInfo.reset])
        omega
    · simp at hok

/-- C7 (amended): the target evaluation step never aborts (there is no
NonFiniteTarget fatal: a NaN log-target at an in-support point flows into
the position record and the acceptance computation, which yields 0 with a
diagnostic); out-of-support points never reach the evaluator - every
argument the evaluator was called with lies in the support, and an
out-of-support candidate gets log_target minus infinity with no call
recorded. -/
theorem target_evaluation_spec {Mat : Type} (ops : MatOps Mat)
    (opts : MhOptionsValues) (E : ℚ → ℚ) (conv : Bool) (tk : TKGroup)
    (target : TargetModel) (x0 : ℚ) (chainSize : ℕ)
    (props uniforms : List ℚ) (tkCov0 : Mat) (st' : LoopState Mat)
    (hok : generateFullChain ops opts E conv tk target x0 chainSize props
        uniforms tkCov0 = .ok st') :
    (∀ x ∈ st'.callTrace, target.contains x = true)
    ∧ (∀ v, evalCandidate conv target v true =
        (⟨v, true, .ninf, .ninf⟩, [])) := by
  constructor
  · unfold generateFullChain at hok
    dsimp only at hok
    split at hok
    · simp at hok
    · rename_i hin
      split at hok
      · rename_i st1 hm
        rw [Except.ok.injEq] at hok
        subst hok
        have hx0 : target.contains x0 = true := by
          cases hcc : target.contains x0
          · rw [hcc] at hin; simp at hin
          · rfl
        have := (mhLoop_inv ops opts E conv tk target (chainSize - 1) 1 _
          st1 hm).2.2.2.2
        refine this ?_
        intro x hx
        dsimp only at hx
        simp only [List.mem_singleton] at hx
        subst hx
        exact hx0
      · simp at hok
  · intro v
    simp [evalCandidate]

/-- The target model whose evaluator always returns NaN (its support is
everything). -/
def tgtNan : TargetModel := ⟨fun _ => true, fun _ => (.nan, .nan)⟩

set_option maxHeartbeats 1000000 in
/-- C7 counterexample: an evaluator returning NaN at an in-support point
does not make the run fail - the run completes, the NaN evaluations are
counted (initial position plus one candidate) and the candidate is
rejected in place, with no NonFiniteTarget abort (the model's error type
has no such case and the result is ok). -/
theorem nan_target_does_not_abort :
    (generateFullChain unitOps ⟨0, false, false, 0, 0, 1, 1, false⟩
        (fun _ => 1) true cexTK tgtNan 0 2 [5] [] ()).map
      (fun st => (st.chain, st.info.numTargetCalls,
        st.info.numRejections)) = .ok ([0, 0], 2, 1) := by
  norm_num [generateFullChain, mhLoop, mhStep, mhStepCore, amSection,
    genCandidate, evalCandidate, alphaXY, alphaCore, acceptAlpha, tgtNan,
    cexTK, flCondLn, Fl.isNonFinite, min_one_zero_q, MHRawChainInfo.reset,
    Except.map]

/-- Witness for target_evaluation_spec: in the NaN run above the recorded
evaluator call argument 5 is in support. -/
theorem target_evaluation_spec_witness :
    tgtNan.contains 5 = true := by
  have hr : generateFullChain unitOps ⟨0, false, false, 0, 0, 1, 1, false⟩
      (fun _ => 1) true cexTK tgtNan 0 2 [5] [] () = .ok
      { chain := [0, 0],
        currentPositionData := ⟨0, false, .nan, .nan⟩,
        props := [], uniforms := [],
        info := ⟨2, 0, 0, 0, 1⟩,
        pre := fun n => if n = 1 then 5 else if n = 0 then 0 else 0,
        tkCov := (), lastChainSize := 0,
        lastMean := none, lastAdaptedCovMatrix := none,
        amTrace := [], callTrace := [0, 5], drawTrace := [false] } := by
    norm_num [generateFullChain, mhLoop, mhStep, mhStepCore, amSection,
      genCandidate, evalCandidate, alphaXY, alphaCore, acceptAlpha, tgtNan,
      cexTK, flCondLn, Fl.isNonFinite, min_one_zero_q, MHRawChainInfo.reset]
  exact (target_evaluation_spec unitOps ⟨0, false, false, 0, 0, 1, 1, false⟩
    (fun _ => 1) true cexTK tgtNan 0 2 [5] [] () _ hr).1 5 (by simp)

/-- C4 (amended): the adaptation schedule at step i of the outer loop,
adaptation being enabled.  Nothing is adapted while
i < am_initial_non_adapt_interval; exactly at
i = am_initial_non_adapt_interval AM is seeded consuming the first i+1
chain positions and last_mean and last_cov become allocated; at every
later step an update occurs exactly when
(i - am_initial_non_adapt_interval) mod am_adapt_interval = 0, and it
consumes the am_adapt_interval positions immediately preceding position i
(indices i - am_adapt_interval .. i - 1), not the window ending at i. -/
theorem amSection_schedule {Mat : Type} (ops : MatOps Mat)
    (opts : MhOptionsValues) (pid : ℕ) (chain : List ℚ) (lcs : ℚ)
    (lm : Option ℚ) (lc : Option Mat) (tkCov : Mat)
    (hen : opts.tkUseLocalHessian = false)
    (hthr : 0 < opts.amInitialNonAdaptInterval)
    (hadp : 0 < opts.amAdaptInterval) :
    (pid < opts.amInitialNonAdaptInterval →
      amSection ops opts pid chain lcs lm lc tkCov =
        .ok ((lcs, lm, lc, tkCov), none))
    ∧ (pid = opts.amInitialNonAdaptInterval → lcs = 0 →
        pid + 1 ≤ chain.length →
        (∀ M, ops.chol M ≠ .otherError) →
        ∃ lcs1 mean cov tkCov1,
          amSection ops opts pid chain lcs lm lc tkCov =
            .ok ((lcs1, some mean, some cov, tkCov1),
              some (pid, 0, chain.take (pid + 1))))
    ∧ (opts.amInitialNonAdaptInterval < pid →
        (pid - opts.amInitialNonAdaptInterval) % opts.amAdaptInterval = 0 →
        lcs ≠ 0 → pid ≤ chain.length →
        (∀ M, ops.chol M ≠ .otherError) →
        ∃ lcs1 mean cov tkCov1,
          amSection ops opts pid chain lcs lm lc tkCov =
            .ok ((lcs1, some mean, some cov, tkCov1),
              some (pid, pid - opts.amAdaptInterval,
                (chain.drop (pid - opts.amAdaptInterval)).take
                  opts.amAdaptInterval)))
    ∧ (opts.amInitialNonAdaptInterval < pid →
        (pid - opts.amInitialNonAdaptInterval) % opts.amAdaptInterval ≠ 0 →
        amSection ops opts pid chain lcs lm lc tkCov =
          .ok ((lcs, lm, lc, tkCov), none)) := by
  refine ⟨?_, ?_, ?_, ?_⟩
  · intro hlt
    unfold amSection
    rw [if_pos ⟨hen, hthr, hadp⟩]
    dsimp only
    rw [if_pos hlt]
    dsimp only
    rw [if_neg (by omega)]
  · intro heq hlcs hlen hchol
    unfold amSection
    rw [if_pos ⟨hen, hthr, hadp⟩]
    simp only
      [if_neg (show ¬ pid < opts.amInitialNonAdaptInterval by omega),
      if_pos heq]
    rw [if_pos (show 0 < opts.amInitialNonAdaptInterval + 1 by omega)]
    rw [heq]
    simp only [List.drop_zero]
    have hup : ∃ lcs1 mean cov, updateAdaptedCovMatrix ops
        (chain.take (opts.amInitialNonAdaptInterval + 1)) 0 lcs
        ((Option.some (0:ℚ)).getD 0) ((some ops.zeroM).getD ops.zeroM) =
        .ok (lcs1, mean, cov) := by
      unfold updateAdaptedCovMatrix
      rw [if_pos hlcs, if_neg (by
        simp only [List.length_take]
        omega)]
      exact ⟨_, _, _, rfl⟩
    obtain ⟨lcs1, mean, cov, hup⟩ := hup
    cases hch : ops.chol cov with
    | ok =>
      rw [hup]
      simp only [amRefresh, hch]
      exact ⟨_, _, _, _, rfl⟩
    | notPosDefinite =>
      cases hch2 : ops.chol (ops.add cov (ops.diag opts.amEpsilon)) with
      | ok =>
        rw [hup]
        simp only [amRefresh, hch, hch2]
        exact ⟨_, _, _, _, rfl⟩
      | notPosDefinite =>
        rw [hup]
        simp only [amRefresh, hch, hch2]
        exact ⟨_, _, _, _, rfl⟩
      | otherError => exact absurd hch2 (hchol _)
    | otherError => exact absurd hch (hchol _)
  · intro hgt hmod hlcs hlen hchol
    have hdvd : opts.amAdaptInterval ≤ pid - opts.amInitialNonAdaptInterval :=
      Nat.le_of_dvd (by omega) (Nat.dvd_of_mod_eq_zero hmod)
    unfold amSection
    rw [if_pos ⟨hen, hthr, hadp⟩]
    simp only
      [if_neg (show ¬ pid < opts.amInitialNonAdaptInterval by omega),
      if_neg (show ¬ pid = opts.amInitialNonAdaptInterval by omega),
      if_pos hmod]
    rw [if_pos hadp]
    have hup : ∃ lcs1 mean cov, updateAdaptedCovMatrix ops
        ((chain.drop (pid - opts.amAdaptInterval)).take opts.amAdaptInterval)
        (pid - opts.amAdaptInterval) lcs (lm.getD 0) (lc.getD ops.zeroM) =
        .ok (lcs1, mean, cov) := by
      unfold updateAdaptedCovMatrix
      rw [if_neg hlcs, if_neg (by
          simp only [List.length_take, List.length_drop]
          omega),
        if_neg (by omega)]
      exact ⟨_, _, _, rfl⟩
    obtain ⟨lcs1, mean, cov, hup⟩ := hup
    cases hch : ops.chol cov with
    | ok =>
      rw [hup]
      simp only [amRefresh, hch]
      exact ⟨_, _, _, _, rfl⟩
    | notPosDefinite =>
      cases hch2 : ops.chol (ops.add cov (ops.diag opts.amEpsilon)) with
      | ok =>
        rw [hup]
        simp only [amRefresh, hch, hch2]
        exact ⟨_, _, _, _, rfl⟩
      | notPosDefinite =>
        rw [hup]
        simp only [amRefresh, hch, hch2]
        exact ⟨_, _, _, _, rfl⟩
      | otherError => exact absurd hch2 (hchol _)
    | otherError => exact absurd hch (hchol _)
  · intro hgt hmod
    unfold amSection
    rw [if_pos ⟨hen, hthr, hadp⟩]
    simp only
      [if_neg (show ¬ pid < opts.amInitialNonAdaptInterval by omega),
      if_neg (show ¬ pid = opts.amInitialNonAdaptInterval by omega),
      if_neg hmod]
    rw [if_neg (show ¬ (0:ℕ) < 0 by omega)]

/-- Witness for amSection_schedule: below the initial non-adapt interval
nothing is adapted. -/
theorem amSection_schedule_witness :
    amSection ratOps ⟨0, false, false, 2, 1, 1, 1, false⟩ 0 [] 0 none none 5 =
      .ok ((0, none, none, 5), none) :=
  (amSection_schedule ratOps ⟨0, false, false, 2, 1, 1, 1, false⟩ 0 [] 0
      none none 5 rfl (by norm_num) (by norm_num)).1 (by norm_num)

/-- Modelled from the claim C4's words: the most recent am_adapt_interval
chain positions at step i, where the chain then holds positions 0..i. -/
def amClaimWindow (chain : List ℚ) (pid adapt : ℕ) : List ℚ :=
  (chain.take (pid + 1)).drop (pid + 1 - adapt)

set_option maxHeartbeats 2000000 in
/-- C4 counterexample: with am_initial_non_adapt_interval = 1 and
am_adapt_interval = 1 on an all-accepting three-position run with chain
values 0, 1, 2, the update event at step 2 consumes position 1 (indices
i - interval .. i - 1), while the most recent position of the chain at
that moment is position 2: the consumed window is not the claimed most
recent one. -/
theorem am_update_window_not_most_recent :
    (generateFullChain ratOps ⟨0, false, false, 1, 1, 1, 1, false⟩
        (fun _ => 1) true cexTK tgtZero 0 3 [1, 2] [] 1).map
      (fun st => (st.chain, st.amTrace)) =
        .ok ([0, 1, 2], [(1, 0, [0, 1]), (2, 1, [1])])
    ∧ amClaimWindow [0, 1, 2] 2 1 = [2]
    ∧ ([(1:ℚ)] : List ℚ) ≠ [2] := by
  refine ⟨?_, by norm_num [amClaimWindow], by norm_num⟩
  norm_num [generateFullChain, mhLoop, mhStep, mhStepCore, amSection,
    updateAdaptedCovMatrix, amRefresh, genCandidate, evalCandidate,
    alphaXY, alphaCore, acceptAlpha, tgtZero, cexTK, ratOps, flCondLn,
    Fl.q, Fl.isNonFinite, MHRawChainInfo.reset, List.enum, Except.map]

/-- One iteration under the S1 conditions (no DR, valid pre-computing
positions, next draw in support): the step succeeds, appends one chain
position, calls the evaluator once and rejects at most once. -/
theorem mhStepCore_plain {Mat : Type} (opts : MhOptionsValues) (E : ℚ → ℚ)
    (conv : Bool) (tk : TKGroup) (target : TargetModel) (pid : ℕ)
    (st : LoopState Mat) (p : ℚ) (rest : List ℚ)
    (hK : opts.drMaxNumExtraStages = 0)
    (htk : ∀ v n, tk.setPreCompValid v n = true)
    (hprops : st.props = p :: rest)
    (hp : target.contains p = true) :
    ∃ st1, mhStepCore opts E conv tk target pid st = .ok st1
      ∧ st1.chain.length = st.chain.length + 1
      ∧ st1.info.numTargetCalls = st.info.numTargetCalls + 1
      ∧ st1.info.numRejections ≤ st.info.numRejections + 1
      ∧ st1.props = rest := by
  unfold mhStepCore
  rw [hprops, htk st.currentPositionData.vecValues 0]
  simp only [Bool.true_eq_false, if_false, ite_false]
  rw [show genCandidate opts.putOutOfBoundsInChain target.contains
      (p :: rest) = some (p, false, rest, [false]) from by
    simp [genCandidate, hp]]
  dsimp only
  simp only [hK, Nat.lt_irrefl, and_false, false_and, and_true,
    Bool.false_eq_true, if_false, ite_false, not_false_iff]
  cases hau : acceptAlpha
      (alphaXY E conv tk st.currentPositionData
        (evalCandidate conv target p false).1 0 1) st.uniforms with
  | mk a u =>
    cases a with
    | true =>
      refine ⟨_, rfl, ?_, ?_, ?_, rfl⟩ <;> simp
    | false =>
      refine ⟨_, rfl, ?_, ?_, ?_, rfl⟩ <;> simp

theorem mhLoop_plain {Mat : Type} (ops : MatOps Mat)
    (opts : MhOptionsValues) (E : ℚ → ℚ) (conv : Bool) (tk : TKGroup)
    (target : TargetModel)
    (hK : opts.drMaxNumExtraStages = 0)
    (hAM : opts.amAdaptInterval = 0)
    (htk : ∀ v n, tk.setPreCompValid v n = true) :
    ∀ (steps pid : ℕ) (st : LoopState Mat),
      (∀ q ∈ st.props, target.contains q = true) →
      steps ≤ st.props.length →
      ∃ st', mhLoop ops opts E conv tk target steps pid st = .ok st'
        ∧ st'.chain.length = st.chain.length + steps
        ∧ st'.info.numTargetCalls = st.info.numTargetCalls + steps
        ∧ st'.info.numRejections ≤ st.info.numRejections + steps := by
  intro steps
  induction steps with
  | zero =>
    intro pid st hin hlen
    exact ⟨st, rfl, by omega, by omega, by omega⟩
  | succ n ih =>
    intro pid st hin hlen
    cases hps : st.props with
    | nil => rw [hps] at hlen; simp at hlen
    | cons p rest =>
      have hp : target.contains p = true := hin p (by rw [hps]; simp)
      obtain ⟨st1, hc, e1, e2, e3, e4⟩ := mhStepCore_plain opts E conv tk
        target pid st p rest hK htk hps hp
      have hstep : mhStep ops opts E conv tk target pid st = .ok st1 := by
        rw [mhStep_am_disabled ops opts E conv tk target pid st
          (Or.inr (Or.inr hAM))]
        exact hc
      simp only [mhLoop, hstep]
      have hin1 : ∀ q ∈ st1.props, target.contains q = true := by
        rw [e4]
        intro q hq
        exact hin q (by rw [hps]; simp [hq])
      have hlen1 : n ≤ st1.props.length := by
        rw [e4]
        rw [hps] at hlen
        simpa using hlen
      obtain ⟨st', hrest, f1, f2, f3⟩ := ih (pid + 1) st1 hin1 hlen1
      exact ⟨st', hrest, by omega, by omega, by omega⟩

/-- A completed run under the S1 conditions, from the initial point on. -/
theorem generateFullChain_plain {Mat : Type} (ops : MatOps Mat)
    (opts : MhOptionsValues) (E : ℚ → ℚ) (conv : Bool) (tk : TKGroup)
    (target : TargetModel) (x0 : ℚ) (chainSize : ℕ)
    (props uniforms : List ℚ) (tkCov0 : Mat)
    (hK : opts.drMaxNumExtraStages = 0)
    (hAM : opts.amAdaptInterval = 0)
    (htk : ∀ v n, tk.setPreCompValid v n = true)
    (hx0 : target.contains x0 = true)
    (hprops : ∀ q ∈ props, target.contains q = true)
    (hlen : chainSize - 1 ≤ props.length) :
    ∃ st', generateFullChain ops opts E conv tk target x0 chainSize props
        uniforms tkCov0 = .ok st'
      ∧ st'.chain.length = chainSize - 1 + 1
      ∧ st'.info.numTargetCalls = chainSize - 1 + 1
      ∧ st'.info.numRejections ≤ chainSize - 1 := by
  obtain ⟨st', hloop, f1, f2, f3⟩ := mhLoop_plain ops opts E conv tk target
    hK hAM htk (chainSize - 1) 1
    ({ chain := [x0],
       currentPositionData :=
         ⟨x0, false, (target.callFunction x0).1,
           flCondLn conv (target.callFunction x0).2⟩,
       props := props, uniforms := uniforms,
       info := { MHRawChainInfo.reset with numTargetCalls := 1 },
       pre := fun _ => 0,
       tkCov := tkCov0, lastChainSize := 0,
       lastMean := none, lastAdaptedCovMatrix := none,
       amTrace := [], callTrace := [x0], drawTrace := [] } : LoopState Mat)
    hprops hlen
  unfold generateFullChain
  rw [hx0]
  simp only [Bool.not_true, Bool.false_eq_true, if_false, ite_false]
  rw [hloop]
  refine ⟨st', rfl, ?_, ?_, ?_⟩
  · rw [f1]; simp <;> omega
  · rw [f2]; simp [MHRawChainInfo.reset] <;> omega
  · simp [MHRawChainInfo.reset] at f3
    omega

/-- C9 (amended): scenario S1 with chain size N = 10, DR disabled, AM
off, in-support initial point and every proposal in support: the chain has
length 10, num_target_calls is 10 (one call for the initial position plus
9 for the proposals of positions 1..9, position 0 being the initial
point), and num_rejections lies in [0, 9]. -/
theorem s1_counts {Mat : Type} (ops : MatOps Mat)
    (opts : MhOptionsValues) (E : ℚ → ℚ) (conv : Bool) (tk : TKGroup)
    (target : TargetModel) (x0 : ℚ) (props uniforms : List ℚ)
    (tkCov0 : Mat)
    (hK : opts.drMaxNumExtraStages = 0)
    (hAM : opts.amAdaptInterval = 0)
    (htk : ∀ v n, tk.setPreCompValid v n = true)
    (hx0 : target.contains x0 = true)
    (hprops : ∀ q ∈ props, target.contains q = true)
    (hlen : 9 ≤ props.length) :
    ∃ st', generateFullChain ops opts E conv tk target x0 10 props
        uniforms tkCov0 = .ok st'
      ∧ st'.chain.length = 10
      ∧ st'.info.numTargetCalls = 10
      ∧ st'.info.numRejections ≤ 9 := by
  obtain ⟨st', hok, f1, f2, f3⟩ := generateFullChain_plain ops opts E conv
    tk target x0 10 props uniforms tkCov0 hK hAM htk hx0 hprops hlen
  exact ⟨st', hok, f1, f2, f3⟩

/-- Witness for s1_counts: the all-accepting zero-target run on nine unit
proposals. -/
theorem s1_counts_witness :
    ∃ st', generateFullChain unitOps ⟨0, false, false, 0, 0, 1, 1, false⟩
        (fun _ => 1) true cexTK tgtZero 0 10 (List.replicate 9 1) [] () =
        .ok st'
      ∧ st'.chain.length = 10
      ∧ st'.info.numTargetCalls = 10
      ∧ st'.info.numRejections ≤ 9 :=
  s1_counts unitOps ⟨0, false, false, 0, 0, 1, 1, false⟩ (fun _ => 1) true
    cexTK tgtZero 0 (List.replicate 9 1) [] () rfl rfl
    (fun _ _ => rfl) rfl (by simp [tgtZero]) (by simp)

/-- C9 counterexample: in that same S1 run num_target_calls is 10, not the
claimed 11 - the chain's position 0 holds the initial point, so only 9
proposals are evaluated on top of the initial evaluation. -/
theorem s1_numTargetCalls_ne_eleven :
    (generateFullChain unitOps ⟨0, false, false, 0, 0, 1, 1, false⟩
        (fun _ => 1) true cexTK tgtZero 0 10 (List.replicate 9 1) [] ()).map
      (fun st => st.info.numTargetCalls) ≠ .ok 11 := by
  obtain ⟨st', hok, f1, f2, f3⟩ := generateFullChain_plain unitOps
    ⟨0, false, false, 0, 0, 1, 1, false⟩ (fun _ => 1) true cexTK tgtZero 0
    10 (List.replicate 9 1) [] () rfl rfl (fun _ _ => rfl) rfl
    (by simp [tgtZero]) (by simp)
  rw [hok]
  simp only [Except.map]
  intro hcontra
  rw [Except.ok.injEq] at hcontra
  omega

/-- The final state of the single-position run on the zero target: the
initial point alone, one target call, nothing else. -/
def c8St : LoopState Unit :=
  { chain := [0],
    currentPositionData := ⟨0, false, .fin 0, .fin 0⟩,
    props := [], uniforms := [],
    info := ⟨1, 0, 0, 0, 0⟩,
    pre := fun _ => 0,
    tkCov := (), lastChainSize := 0,
    lastMean := none, lastAdaptedCovMatrix := none,
    amTrace := [], callTrace := [0], drawTrace := [] }

/-- Witness for outOfSupport_accounting: the single-position run on the
zero target completes with both out-of-support counters at 0. -/
theorem outOfSupport_accounting_witness :
    c8St.info.numOutOfTargetSupport + c8St.info.numOutOfTargetSupportInDR ≤
      c8St.info.numRejections + c8St.info.numDRs
    ∧ ((⟨0, false, false, 0, 0, 1, 1, true⟩ :
          MhOptionsValues).putOutOfBoundsInChain = true →
        c8St.info.numOutOfTargetSupport + c8St.info.numOutOfTargetSupportInDR
          = c8St.drawTrace.count true)
    ∧ ((⟨0, false, false, 0, 0, 1, 1, true⟩ :
          MhOptionsValues).putOutOfBoundsInChain = false →
        c8St.info.numOutOfTargetSupport + c8St.info.numOutOfTargetSupportInDR
          = 0) :=
  outOfSupport_accounting unitOps ⟨0, false, false, 0, 0, 1, 1, true⟩
    (fun _ => 1) true cexTK tgtZero 0 1 [] [] () c8St rfl

/-- A target supported only at the origin whose evaluator returns NaN
log values. -/
def tgtNanAtZero : TargetModel :=
  ⟨fun q => if q = 0 then true else false, fun _ => (.nan, .nan)⟩

set_option maxHeartbeats 1000000 in
/-- C8 counterexample: a 2-position run (N = 2) with 4 DR stages under
put_out_of_bounds_in_chain, whose every DR candidate is retained out of
support, ends with num_out_of_support + num_out_of_support_in_dr = 0 + 4,
num_rejections = 1 and num_drs = 4: the claimed bound
num_rejections + N = 3 is exceeded (the correct bound adds num_drs, not
N). -/
theorem outOfSupport_bound_violated :
    (generateFullChain unitOps ⟨4, false, false, 0, 0, 1, 1, true⟩
        (fun _ => 1) true cexTK tgtNanAtZero 0 2 [0, 1, 1, 1, 1] [] ()).map
      (fun st => st.info) = .ok ⟨2, 4, 0, 4, 1⟩
    ∧ ¬ ((0 : ℕ) + 4 ≤ 1 + 2) := by
  constructor
  · norm_num [generateFullChain, mhLoop, mhStep, mhStepCore, amSection,
      drLoop, genCandidate, evalCandidate, alphaXY, alphaCore, acceptAlpha,
      tgtNanAtZero, cexTK, unitOps, flCondLn, Fl.isNonFinite,
      MHRawChainInfo.reset, Except.map]
  · norm_num

end Queso
